import Mathlib

/-!
# Verification of the image-resize-server core

Shallow embedding of the resize-cache coordination, size-spec validation,
variant cleanup, upload batch and key-protection codec of the
image-resize-server repository, together with proofs settling the frozen
claims about them.

JavaScript strings are modelled as lists of characters (`JStr`), buffers as
lists of byte values (`List Nat`, each entry `< 256` where it matters), and
the object store as an association list from keys to stored objects.
External capabilities (the AES-256-GCM cipher, scrypt, the sharp resize
kernel, the S3 gateway) are modelled as parameters or, where the spec gives
their contract, as definitions marked `Modelled from the spec:`.
-/

/-- JavaScript strings, modelled as lists of characters. -/
abbrev JStr := List Char

/-- The characters of a Lean string literal, used to write concrete
JavaScript strings in statements. -/
def toJStr (s : String) : JStr := s.toList

/-- ASCII lower-casing of one character, modelling the effect of
JavaScript `toLowerCase` on the ASCII inputs this program handles. -/
def jsToLower (c : Char) : Char :=
  if 65 ≤ c.toNat ∧ c.toNat ≤ 90 then Char.ofNat (c.toNat + 32) else c

/-- JavaScript `String.prototype.split` with a single-character separator:
`"40xx30".split("x") = ["40", "", "30"]`, `"".split("x") = [""]`. -/
def splitOnChar (sep : Char) : JStr → List JStr
  | [] => [[]]
  | c :: rest =>
    let r := splitOnChar sep rest
    if c = sep then [] :: r
    else
      match r with
      | g :: gs => (c :: g) :: gs
      | [] => [[c]]

/-- Value of a decimal-digit string (most significant digit first);
non-digit characters contribute garbage and are never fed to it. -/
def digitsVal (s : JStr) : Nat :=
  s.foldl (fun a c => a * 10 + (c.toNat - 48)) 0

/-- The decimal digit character for `d < 10`. -/
def digitChar (d : Nat) : Char := Char.ofNat (48 + d)

/-- Fuel-driven body of `natToChars`; structural recursion on the fuel
keeps it kernel-reducible for `decide`. -/
def natToCharsAux (fuel : Nat) (n : Nat) : JStr :=
  match fuel with
  | 0 => []
  | fuel + 1 =>
    if n < 10 then [digitChar n]
    else natToCharsAux fuel (n / 10) ++ [digitChar (n % 10)]

/-- Canonical decimal rendering of a natural number, as JavaScript
`Number.prototype.toString` renders integers in the exact (`< 2^53`)
range. -/
def natToChars (n : Nat) : JStr := natToCharsAux (n + 1) n

theorem natToCharsAux_irrel (f1 : Nat) : ∀ f2 n, n < f1 → n < f2 →
    natToCharsAux f1 n = natToCharsAux f2 n := by
  induction f1 with
  | zero => omega
  | succ f1 ih =>
    intro f2 n h1 h2
    match f2 with
    | 0 => omega
    | f2 + 1 =>
      simp only [natToCharsAux]
      by_cases hn : n < 10
      · simp [hn]
      · have hd : n / 10 < n := Nat.div_lt_self (by omega) (by omega)
        simp only [hn, if_false]
        rw [ih f2 (n / 10) (by omega) (by omega)]

theorem natToChars_small {n : Nat} (h : n < 10) : natToChars n = [digitChar n] := by
  simp [natToChars, natToCharsAux, h]

theorem natToChars_big {n : Nat} (h : 10 ≤ n) :
    natToChars n = natToChars (n / 10) ++ [digitChar (n % 10)] := by
  have hd : n / 10 < n := Nat.div_lt_self (by omega) (by omega)
  show natToCharsAux (n + 1) n = _
  rw [show natToCharsAux (n + 1) n
      = natToCharsAux n (n / 10) ++ [digitChar (n % 10)] from by
    simp [natToCharsAux, Nat.not_lt.mpr h]]
  rw [natToCharsAux_irrel n (n / 10 + 1) (n / 10) (by omega) (by omega)]
  rfl

/-- Rendering of an integer, as JavaScript renders integer Numbers
(`-0` renders as `"0"`, which matches `Int` having a single zero). -/
def intToChars (i : Int) : JStr :=
  if i < 0 then '-' :: natToChars i.natAbs else natToChars i.natAbs

/-- JavaScript whitespace characters recognised while trimming numeric
input (ASCII subset). -/
def isJsWs (c : Char) : Bool :=
  c = ' ' ∨ c = '\t' ∨ c = '\n' ∨ c = '\r' ∨ c = '\x0b' ∨ c = '\x0c'

/-- Hexadecimal digit value of a character, if any. -/
def hexVal (c : Char) : Option Nat :=
  if '0' ≤ c ∧ c ≤ '9' then some (c.toNat - 48)
  else if 'a' ≤ c ∧ c ≤ 'f' then some (c.toNat - 97 + 10)
  else if 'A' ≤ c ∧ c ≤ 'F' then some (c.toNat - 65 + 10)
  else none

/-- Strip an optional leading sign; `true` means negative. -/
def peelSign (s : JStr) : Bool × JStr :=
  match s with
  | c :: r => if c = '-' then (true, r) else if c = '+' then (false, r) else (false, s)
  | [] => (false, s)

/-- Whether the string starts with `0` followed by one of the two radix
marker characters. -/
def radixPrefixed (lo hi : Char) (t : JStr) : Bool :=
  match t with
  | c0 :: c1 :: _ => c0 = '0' ∧ (c1 = lo ∨ c1 = hi)
  | _ => false

/-- JavaScript `parseInt(s)` with the radix argument omitted: skip
whitespace, take an optional sign, then either a `0x`/`0X` hexadecimal
literal or a maximal run of decimal digits; no digits means `NaN`,
modelled as `none`.  Exact-integer model of the double result, faithful
in the `< 2^53` range this program's checks live in. -/
def jsParseInt (s : JStr) : Option Int :=
  let s1 := s.dropWhile isJsWs
  let sb := peelSign s1
  let body := sb.2
  let mag : Option Nat :=
    if radixPrefixed 'x' 'X' body then
      let ds := (body.drop 2).takeWhile (fun c => (hexVal c).isSome)
      if ds = [] then none
      else some (ds.foldl (fun a c => a * 16 + ((hexVal c).getD 0)) 0)
    else
      let ds := body.takeWhile Char.isDigit
      if ds = [] then none else some (digitsVal ds)
  mag.map (fun m => if sb.1 then -(m : Int) else (m : Int))

/-- Result of JavaScript `Number(...)` when it is a number: a finite
value, kept as the exact decimal fraction `num / 10 ^ dpow` (an exact
model of the double wherever the comparisons this program performs are
rounding-free), or an infinity.  `NaN` is modelled as `none` one level
up. -/
inductive JsNum where
  | fin (num : Int) (dpow : Nat)
  | posInf
  | negInf
  deriving DecidableEq

/-- Exponent suffix of a decimal literal (after the `e`/`E`): optional
sign, then only digits. -/
def jsExpSuffix (num : Int) (dpow : Nat) (r3 : JStr) : Option (Int × Nat) :=
  let se := peelSign r3
  let ds := se.2
  if ds = [] ∨ ¬ ds.all Char.isDigit then none
  else if se.1 then some (num, dpow + digitsVal ds)
  else some (num * (10 : Int) ^ digitsVal ds, dpow)

/-- Decimal numeric literal body: `digits [. digits] [e [sign] digits]`
or `. digits [e [sign] digits]`; the whole input must be consumed.  The
value is returned as `(num, dpow)` standing for `num / 10 ^ dpow`. -/
def jsDecimalLit (s : JStr) : Option (Int × Nat) :=
  let ip := s.takeWhile Char.isDigit
  let r1 := s.dropWhile Char.isDigit
  let hadDot : Bool := decide (r1.take 1 = ['.'])
  let fp := if hadDot then (r1.drop 1).takeWhile Char.isDigit else []
  let r2 := if hadDot then (r1.drop 1).dropWhile Char.isDigit else r1
  if ip = [] ∧ fp = [] then none
  else
    let num : Int := (digitsVal ip : Int) * (10 : Int) ^ fp.length + (digitsVal fp : Int)
    if r2 = [] then some (num, fp.length)
    else if r2.take 1 = ['e'] ∨ r2.take 1 = ['E'] then jsExpSuffix num fp.length (r2.drop 1)
    else none

/-- JavaScript `Number(string)`: trims whitespace, maps the empty string
to `0`, accepts `0x`/`0o`/`0b` integer literals (unsigned only), signed
`Infinity`, and signed decimal literals; everything else is `NaN`
(`none`).  Exact-rational model of the double value; faithful wherever
the relevant comparisons (`NaN`, `≤ 0`, `> 5000`) are rounding-free,
which covers every input this development reasons about. -/
def jsNumber (s : JStr) : Option JsNum :=
  let t := ((s.dropWhile isJsWs).reverse.dropWhile isJsWs).reverse
  if t = [] then some (.fin 0 0)
  else if radixPrefixed 'x' 'X' t then radixLit 16 (t.drop 2)
  else if radixPrefixed 'o' 'O' t then radixLit 8 (t.drop 2)
  else if radixPrefixed 'b' 'B' t then radixLit 2 (t.drop 2)
  else
    let sb := peelSign t
    if sb.2 = toJStr "Infinity" then
      some (if sb.1 then .negInf else .posInf)
    else
      match jsDecimalLit sb.2 with
      | some nd => some (.fin (if sb.1 then -nd.1 else nd.1) nd.2)
      | none => none
where
  /-- Unsigned radix-prefixed integer literal after the prefix. -/
  radixLit (radix : Nat) (ds : JStr) : Option JsNum :=
    if ds = [] ∨ ds.any (fun c => match hexVal c with
        | some v => ¬ v < radix
        | none => true) then none
    else some (.fin ((ds.foldl (fun a c => a * radix + ((hexVal c).getD 0)) 0 : Nat) : Int) 0)

/-- The JavaScript comparison `n <= 0` on a non-`NaN` number
(`num / 10 ^ dpow ≤ 0` iff `num ≤ 0`). -/
def jsLeZero : JsNum → Bool
  | .fin num _ => decide (num ≤ 0)
  | .posInf => false
  | .negInf => true

/-- The JavaScript comparison `n > 5000` on a non-`NaN` number
(`num / 10 ^ dpow > 5000` iff `num > 5000 * 10 ^ dpow`). -/
def jsGtMax : JsNum → Bool
  | .fin num dpow => decide ((5000 : Int) * (10 : Int) ^ dpow < num)
  | .posInf => true
  | .negInf => false

/-- Decidable equality for `Except`, used to state concrete evaluations
of the embedded fallible operations. -/
instance {ε α : Type} [DecidableEq ε] [DecidableEq α] : DecidableEq (Except ε α) := fun x y =>
  match x, y with
  | .ok a, .ok b =>
    if h : a = b then .isTrue (by rw [h])
    else .isFalse (fun he => h (by injection he))
  | .error a, .error b =>
    if h : a = b then .isTrue (by rw [h])
    else .isFalse (fun he => h (by injection he))
  | .ok _, .error _ => .isFalse (fun he => Except.noConfusion he)
  | .error _, .ok _ => .isFalse (fun he => Except.noConfusion he)

/-- Reason string carried by the first-stage width rejection
(`helpers.ts` `validateSizeParameter`). -/
def reasonWidth1 (w : JStr) : JStr :=
  toJStr "1: Width " ++ w ++ toJStr " is not a valid number"

/-- Reason string carried by the first-stage height rejection. -/
def reasonHeight2 (h : JStr) : JStr :=
  toJStr "2: Height " ++ h ++ toJStr " is not a valid number"

/-- Reason string carried by the first-stage single-number rejection. -/
def reasonWidth3 (s : JStr) : JStr :=
  toJStr "3: Width " ++ s ++ toJStr " is not a valid number"

/-- The check `tok.length != parseInt(tok).toString().length` performed by
`validateSizeParameter` on each numeric token; `true` means the token is
kept.  When `parseInt` returns `NaN` the rendered string is `"NaN"` of
length 3. -/
def lenCheckToken (tok : JStr) : Bool :=
  match jsParseInt tok with
  | some v => (intToChars v).length == tok.length
  | none => 3 == tok.length

/-- `validateSizeParameter` from `src/utils/helpers.ts`: lower-cases the
size string; if it is non-empty and contains an `x`, length-checks the
first two `split("x")` segments as width and height, otherwise
length-checks the whole string as a single width.  Errors carry the
source's reason strings (the surrounding `InvalidSizeParameter`
exception). -/
def validateSizeParameter (s0 : JStr) : Except JStr Unit :=
  let size := s0.map jsToLower
  if size ≠ [] ∧ 'x' ∈ size then
    match splitOnChar 'x' size with
    | w :: h :: _ =>
      if lenCheckToken w = false then .error (reasonWidth1 w)
      else if lenCheckToken h = false then .error (reasonHeight2 h)
      else .ok ()
    | _ => .ok () -- unreachable: `size` contains 'x', so the split has ≥ 2 parts
  else
    if lenCheckToken size = false then .error (reasonWidth3 size) else .ok ()

/-- Reason string of the stage-two `NaN` rejection
(`image-operations.ts` `validateSize`). -/
def reasonFormat : JStr := toJStr "Invalid size format. Expected format: WIDTHxHEIGHT"

/-- Reason string of the stage-two positivity rejection. -/
def reasonPositive : JStr := toJStr "Dimensions must be positive numbers"

/-- Reason string of the stage-two maximum-bound rejection. -/
def reasonMaximum : JStr := toJStr "Dimensions exceed maximum allowed size of 5000x5000"

/-- `validateSize` from `src/utils/image-operations.ts`:
`size.toLowerCase().split("x").map(Number)` destructured into
`[width, height]` (a missing second segment leaves `height` as
`undefined`, whose `Number` image is `NaN`), followed by the `NaN`,
positivity and `5000` bound checks. -/
def validateSize (size : JStr) : Except JStr (JsNum × JsNum) :=
  let parts := splitOnChar 'x' (size.map jsToLower)
  let width : Option JsNum :=
    match parts with
    | p :: _ => jsNumber p
    | [] => none
  let height : Option JsNum :=
    match parts with
    | _ :: p :: _ => jsNumber p
    | _ => none
  match width, height with
  | some w, some h =>
    if jsLeZero w ∨ jsLeZero h then .error reasonPositive
    else if jsGtMax w ∨ jsGtMax h then .error reasonMaximum
    else .ok (w, h)
  | _, _ => .error reasonFormat

/-- The size validation performed on the read path
(`routes/image.ts`): `validateSizeParameter(size.toLowerCase())`
followed (inside `getOrCreateResizedImage`) by
`validateSize(size.toLowerCase())`. -/
def sizeValidation (s : JStr) : Except JStr (JsNum × JsNum) :=
  match validateSizeParameter (s.map jsToLower) with
  | .error e => .error e
  | .ok _ => validateSize (s.map jsToLower)

example : (sizeValidation (toJStr "400x300")).isOk = true := by decide
example : (sizeValidation (toJStr ".25x.25")).isOk = true := by decide
example : sizeValidation (toJStr "6000x6000") = .error reasonMaximum := by decide
example : sizeValidation (toJStr "40xx30") = .error (reasonHeight2 []) := by decide
example : sizeValidation (toJStr "abc") = .error reasonFormat := by decide
example : validateSizeParameter (toJStr "abc") = .ok () := by decide
example : validateSizeParameter (toJStr "00") = .error (reasonWidth3 (toJStr "00")) := by decide
example : validateSizeParameter (toJStr "500") = .ok () := by decide
example : validateSize (toJStr "500") = .error reasonFormat := by decide

/-! ## Decimal-digit string lemmas -/

theorem char_eq_of_toNat_eq {c1 c2 : Char} (h : c1.toNat = c2.toNat) : c1 = c2 := by
  rw [← Char.ofNat_toNat c1, ← Char.ofNat_toNat c2, h]

theorem isDigit_toNat {c : Char} (h : c.isDigit = true) :
    48 ≤ c.toNat ∧ c.toNat ≤ 57 := by
  simp [Char.isDigit] at h
  exact ⟨h.1, h.2⟩

theorem digitChar_toNat {d : Nat} (h : d < 10) : (digitChar d).toNat = 48 + d := by
  unfold digitChar
  interval_cases d <;> decide

theorem digitChar_isDigit {d : Nat} (h : d < 10) : (digitChar d).isDigit = true := by
  unfold digitChar
  interval_cases d <;> decide

theorem digit_not_ws {c : Char} (h : c.isDigit = true) : isJsWs c = false := by
  have hb := isDigit_toNat h
  rw [isJsWs, decide_eq_false_iff_not]
  rintro (rfl | rfl | rfl | rfl | rfl | rfl) <;> exact absurd hb (by decide)

theorem digit_ne {c x : Char} (h : c.isDigit = true) (hx : x.isDigit = false) : c ≠ x := by
  intro he
  rw [he, hx] at h
  exact Bool.noConfusion h

theorem digitsVal_foldl (s : JStr) : ∀ a : Nat,
    s.foldl (fun a c => a * 10 + (c.toNat - 48)) a = a * 10 ^ s.length + digitsVal s := by
  induction s with
  | nil => intro a; simp [digitsVal]
  | cons c r ih =>
    intro a
    have h1 : digitsVal (c :: r) = (c.toNat - 48) * 10 ^ r.length + digitsVal r := by
      show List.foldl _ (0 * 10 + (c.toNat - 48)) r = _
      rw [ih]
      ring_nf
    show List.foldl _ (a * 10 + (c.toNat - 48)) r = _
    rw [ih, h1, List.length_cons]
    ring

theorem digitsVal_cons (c : Char) (r : JStr) :
    digitsVal (c :: r) = (c.toNat - 48) * 10 ^ r.length + digitsVal r := by
  show List.foldl _ (0 * 10 + (c.toNat - 48)) r = _
  rw [digitsVal_foldl]
  ring_nf

theorem digitsVal_append_singleton (s : JStr) (c : Char) :
    digitsVal (s ++ [c]) = digitsVal s * 10 + (c.toNat - 48) := by
  unfold digitsVal
  rw [List.foldl_append]
  rfl

theorem digitsVal_lt_pow (s : JStr) (hs : ∀ c ∈ s, c.isDigit = true) :
    digitsVal s < 10 ^ s.length := by
  induction s with
  | nil => simp [digitsVal]
  | cons c r ih =>
    have hc := isDigit_toNat (hs c (by simp))
    have hr := ih (fun x hx => hs x (by simp [hx]))
    rw [digitsVal_cons, List.length_cons, pow_succ]
    have h9 : c.toNat - 48 ≤ 9 := by omega
    calc (c.toNat - 48) * 10 ^ r.length + digitsVal r
        < (c.toNat - 48) * 10 ^ r.length + 10 ^ r.length := by omega
      _ = (c.toNat - 48 + 1) * 10 ^ r.length := by ring
      _ ≤ 10 * 10 ^ r.length := by
          exact Nat.mul_le_mul_right _ (by omega)
      _ = 10 ^ r.length * 10 := by ring

theorem digits_ext (s1 : JStr) : ∀ s2 : JStr, s1.length = s2.length →
    (∀ c ∈ s1, c.isDigit = true) → (∀ c ∈ s2, c.isDigit = true) →
    digitsVal s1 = digitsVal s2 → s1 = s2 := by
  induction s1 with
  | nil =>
    intro s2 hl _ _ _
    cases s2 with
    | nil => rfl
    | cons c r => simp at hl
  | cons c1 r1 ih =>
    intro s2 hl h1 h2 hv
    cases s2 with
    | nil => simp at hl
    | cons c2 r2 =>
      have hlen : r1.length = r2.length := by simpa using hl
      have hb1 := isDigit_toNat (h1 c1 (by simp))
      have hb2 := isDigit_toNat (h2 c2 (by simp))
      have hv1 : digitsVal r1 < 10 ^ r1.length :=
        digitsVal_lt_pow r1 (fun x hx => h1 x (by simp [hx]))
      have hv2 : digitsVal r2 < 10 ^ r2.length :=
        digitsVal_lt_pow r2 (fun x hx => h2 x (by simp [hx]))
      rw [digitsVal_cons, digitsVal_cons, hlen] at hv
      set P := 10 ^ r2.length with hP
      have hPpos : 0 < P := Nat.pos_pow_of_pos _ (by omega)
      rw [hlen] at hv1
      have hmod : digitsVal r1 = digitsVal r2 := by
        have := congrArg (· % P) hv
        simpa [Nat.add_comm _ (digitsVal r1), Nat.add_comm _ (digitsVal r2),
          Nat.add_mul_mod_self_right, Nat.mod_eq_of_lt hv1, Nat.mod_eq_of_lt hv2] using this
      have hdiv : c1.toNat - 48 = c2.toNat - 48 := by
        have := congrArg (· / P) hv
        simpa [Nat.add_comm _ (digitsVal r1), Nat.add_comm _ (digitsVal r2),
          Nat.add_mul_div_right _ _ hPpos, Nat.div_eq_of_lt hv1, Nat.div_eq_of_lt hv2] using this
      have hc : c1 = c2 := char_eq_of_toNat_eq (by omega)
      rw [hc, ih r2 hlen (fun x hx => h1 x (by simp [hx])) (fun x hx => h2 x (by simp [hx])) hmod]

theorem natToChars_digits (n : Nat) : ∀ c ∈ natToChars n, c.isDigit = true := by
  induction n using Nat.strong_induction_on with
  | _ n ih =>
    by_cases h : n < 10
    · rw [natToChars_small h]
      intro c hc
      simp at hc
      rw [hc]
      exact digitChar_isDigit h
    · rw [natToChars_big (by omega)]
      intro c hc
      rcases List.mem_append.mp hc with h1 | h1
      · exact ih (n / 10) (Nat.div_lt_self (by omega) (by omega)) c h1
      · simp at h1
        rw [h1]
        exact digitChar_isDigit (Nat.mod_lt _ (by omega))

theorem digitsVal_natToChars (n : Nat) : digitsVal (natToChars n) = n := by
  induction n using Nat.strong_induction_on with
  | _ n ih =>
    by_cases h : n < 10
    · rw [natToChars_small h]
      show 0 * 10 + ((digitChar n).toNat - 48) = n
      rw [digitChar_toNat h]
      omega
    · rw [natToChars_big (by omega), digitsVal_append_singleton,
        ih (n / 10) (Nat.div_lt_self (by omega) (by omega)),
        digitChar_toNat (Nat.mod_lt _ (by omega))]
      omega

theorem natToChars_round_trip (w : JStr) (hw : ∀ c ∈ w, c.isDigit = true)
    (hlen : (natToChars (digitsVal w)).length = w.length) :
    natToChars (digitsVal w) = w :=
  digits_ext _ w hlen (natToChars_digits _) hw
    (by rw [digitsVal_natToChars])

/-! ## Behaviour of the JavaScript number parsers on digit-only tokens -/

theorem jsToLower_digit {c : Char} (h : c.isDigit = true) : jsToLower c = c := by
  have hb := isDigit_toNat h
  unfold jsToLower
  rw [if_neg (by omega)]

theorem map_jsToLower_digits (w : JStr) (hw : ∀ c ∈ w, c.isDigit = true) :
    w.map jsToLower = w := by
  rw [List.map_congr_left (fun c hc => jsToLower_digit (hw c hc))]
  simp

theorem dropWhile_ws_digits (w : JStr) (hw : ∀ c ∈ w, c.isDigit = true) :
    w.dropWhile isJsWs = w := by
  cases w with
  | nil => rfl
  | cons c r => simp [List.dropWhile_cons, digit_not_ws (hw c (by simp))]

theorem takeWhile_digits (w : JStr) (hw : ∀ c ∈ w, c.isDigit = true) :
    w.takeWhile Char.isDigit = w :=
  List.takeWhile_eq_self_iff.mpr hw

theorem dropWhile_digits (w : JStr) (hw : ∀ c ∈ w, c.isDigit = true) :
    w.dropWhile Char.isDigit = [] := by
  induction w with
  | nil => rfl
  | cons c r ih =>
    simp only [List.dropWhile_cons, hw c (by simp), if_true]
    exact ih (fun x hx => hw x (by simp [hx]))

theorem peelSign_digits (w : JStr) (hw : ∀ c ∈ w, c.isDigit = true) :
    peelSign w = (false, w) := by
  cases w with
  | nil => rfl
  | cons c r =>
    have h1 : c ≠ '-' := digit_ne (hw c (by simp)) (by decide)
    have h2 : c ≠ '+' := digit_ne (hw c (by simp)) (by decide)
    simp [peelSign, h1, h2]

theorem radixPrefixed_digits (lo hi : Char) (hlo : lo.isDigit = false)
    (hhi : hi.isDigit = false) (w : JStr) (hw : ∀ c ∈ w, c.isDigit = true) :
    radixPrefixed lo hi w = false := by
  match w with
  | [] => rfl
  | [c] => rfl
  | c0 :: c1 :: rest =>
    have h1 : c1 ≠ lo := digit_ne (hw c1 (by simp)) hlo
    have h2 : c1 ≠ hi := digit_ne (hw c1 (by simp)) hhi
    simp [radixPrefixed, h1, h2]

theorem jsParseInt_digits (w : JStr) (hne : w ≠ []) (hw : ∀ c ∈ w, c.isDigit = true) :
    jsParseInt w = some ((digitsVal w : Int)) := by
  simp only [jsParseInt, dropWhile_ws_digits w hw, peelSign_digits w hw,
    radixPrefixed_digits 'x' 'X' (by decide) (by decide) w hw, takeWhile_digits w hw,
    Bool.false_eq_true, if_false, if_neg hne]
  rfl

theorem lenCheckToken_digits (w : JStr) (hne : w ≠ []) (hw : ∀ c ∈ w, c.isDigit = true) :
    (lenCheckToken w = true ↔ natToChars (digitsVal w) = w) := by
  unfold lenCheckToken
  rw [jsParseInt_digits w hne hw]
  have hcast : intToChars ((digitsVal w : Int)) = natToChars (digitsVal w) := by
    unfold intToChars
    rw [if_neg (by omega), Int.natAbs_ofNat]
  simp only [hcast, beq_iff_eq]
  constructor
  · exact natToChars_round_trip w hw
  · intro h
    rw [h]

theorem jsNumber_digits (w : JStr) (hne : w ≠ []) (hw : ∀ c ∈ w, c.isDigit = true) :
    jsNumber w = some (.fin (digitsVal w) 0) := by
  have hrev : ∀ c ∈ w.reverse, c.isDigit = true := by
    intro c hc
    exact hw c (List.mem_reverse.mp hc)
  unfold jsNumber
  rw [dropWhile_ws_digits w hw, dropWhile_ws_digits w.reverse hrev, List.reverse_reverse]
  rw [if_neg hne]
  rw [radixPrefixed_digits 'x' 'X' (by decide) (by decide) w hw,
    radixPrefixed_digits 'o' 'O' (by decide) (by decide) w hw,
    radixPrefixed_digits 'b' 'B' (by decide) (by decide) w hw]
  simp only [Bool.false_eq_true, if_false]
  rw [peelSign_digits w hw]
  simp only
  have hinf : w ≠ toJStr "Infinity" := by
    intro he
    have : ('I' : Char).isDigit = true := hw 'I' (by rw [he]; decide)
    exact absurd this (by decide)
  rw [if_neg hinf]
  have hlit : jsDecimalLit w = some ((digitsVal w : Int), 0) := by
    unfold jsDecimalLit
    rw [takeWhile_digits w hw, dropWhile_digits w hw]
    simp only [List.take_nil, List.drop_nil]
    rw [if_neg (by simp [hne])]
    simp [digitsVal]
  rw [hlit]
  simp

/-! ## Splitting lemmas -/

theorem splitOnChar_not_mem {sep : Char} {l : JStr} (h : sep ∉ l) :
    splitOnChar sep l = [l] := by
  induction l with
  | nil => rfl
  | cons c r ih =>
    have hc : c ≠ sep := fun he => h (by simp [he])
    have hr := ih (fun he => h (by simp [he]))
    simp [splitOnChar, hc, hr]

theorem splitOnChar_append {sep : Char} {w : JStr} (r : JStr) (h : sep ∉ w) :
    splitOnChar sep (w ++ sep :: r) = w :: splitOnChar sep r := by
  induction w with
  | nil => simp [splitOnChar]
  | cons c w' ih =>
    have hc : c ≠ sep := fun he => h (by simp [he])
    have hw' := ih (fun he => h (by simp [he]))
    simp only [List.cons_append, splitOnChar, hc, if_false, List.append_eq, hw']

/-! ## The two size-validation stages on a `"WxH"` pair of tokens -/

theorem lower_pair_id (w h : JStr) (hw : ∀ c ∈ w, c.isDigit = true)
    (hh : ∀ c ∈ h, c.isDigit = true) :
    (w ++ 'x' :: h).map jsToLower = w ++ 'x' :: h := by
  rw [List.map_append, List.map_cons, map_jsToLower_digits w hw,
    map_jsToLower_digits h hh, show jsToLower 'x' = 'x' from by decide]

theorem validateSizeParameter_pair (w h : JStr) (hxw : 'x' ∉ w) (hxh : 'x' ∉ h)
    (hlow : (w ++ 'x' :: h).map jsToLower = w ++ 'x' :: h) :
    validateSizeParameter (w ++ 'x' :: h) =
      if lenCheckToken w = false then .error (reasonWidth1 w)
      else if lenCheckToken h = false then .error (reasonHeight2 h)
      else .ok () := by
  unfold validateSizeParameter
  rw [hlow]
  rw [if_pos ⟨by simp, by simp⟩]
  rw [splitOnChar_append h hxw, splitOnChar_not_mem hxh]

theorem validateSize_pair (w h : JStr) (hxw : 'x' ∉ w) (hxh : 'x' ∉ h)
    (hlow : (w ++ 'x' :: h).map jsToLower = w ++ 'x' :: h) :
    validateSize (w ++ 'x' :: h) =
      match jsNumber w, jsNumber h with
      | some a, some b =>
        if jsLeZero a ∨ jsLeZero b then .error reasonPositive
        else if jsGtMax a ∨ jsGtMax b then .error reasonMaximum
        else .ok (a, b)
      | _, _ => .error reasonFormat := by
  unfold validateSize
  rw [hlow]
  rw [splitOnChar_append h hxw, splitOnChar_not_mem hxh]

theorem sizeValidation_digits_iff (w h : JStr) (hwne : w ≠ []) (hhne : h ≠ [])
    (hw : ∀ c ∈ w, c.isDigit = true) (hh : ∀ c ∈ h, c.isDigit = true) :
    (sizeValidation (w ++ 'x' :: h)).isOk = true ↔
      (natToChars (digitsVal w) = w ∧ 1 ≤ digitsVal w ∧ digitsVal w ≤ 5000 ∧
       natToChars (digitsVal h) = h ∧ 1 ≤ digitsVal h ∧ digitsVal h ≤ 5000) := by
  have hxw : 'x' ∉ w := fun hx => absurd (hw 'x' hx) (by decide)
  have hxh : 'x' ∉ h := fun hx => absurd (hh 'x' hx) (by decide)
  have hlow := lower_pair_id w h hw hh
  unfold sizeValidation
  rw [hlow, validateSizeParameter_pair w h hxw hxh hlow]
  by_cases hcw : lenCheckToken w = true
  · by_cases hch : lenCheckToken h = true
    · rw [if_neg (by simp [hcw]), if_neg (by simp [hch])]
      rw [validateSize_pair w h hxw hxh hlow,
        jsNumber_digits w hwne hw, jsNumber_digits h hhne hh]
      simp only [jsLeZero, jsGtMax, pow_zero, mul_one]
      have hrw := (lenCheckToken_digits w hwne hw).mp hcw
      have hrh := (lenCheckToken_digits h hhne hh).mp hch
      by_cases hz : (digitsVal w : Int) ≤ 0 ∨ (digitsVal h : Int) ≤ 0
      · rw [if_pos (by simpa using hz)]
        simp only [Except.isOk, Except.toBool, Bool.false_eq_true, false_iff]
        intro hctr
        obtain ⟨-, h2, h3, -, h5, h6⟩ := hctr
        omega
      · rw [if_neg (by simpa using hz)]
        by_cases hm : (5000 : Int) < (digitsVal w : Int) ∨ (5000 : Int) < (digitsVal h : Int)
        · rw [if_pos (by simpa using hm)]
          simp only [Except.isOk, Except.toBool, Bool.false_eq_true, false_iff]
          intro hctr
          obtain ⟨-, h2, h3, -, h5, h6⟩ := hctr
          omega
        · rw [if_neg (by simpa using hm)]
          simp only [Except.isOk, Except.toBool, eq_self_iff_true, true_iff]
          refine ⟨hrw, by omega, by omega, hrh, by omega, by omega⟩
    · rw [if_neg (by simp [hcw]), if_pos (by simp [Bool.not_eq_true] at hch; exact hch)]
      simp only [Except.isOk, Except.toBool, Bool.false_eq_true, false_iff]
      intro hctr
      exact hch ((lenCheckToken_digits h hhne hh).mpr hctr.2.2.2.1)
  · rw [if_pos (by simp [Bool.not_eq_true] at hcw; exact hcw)]
    simp only [Except.isOk, Except.toBool, Bool.false_eq_true, false_iff]
    intro hctr
    exact hcw ((lenCheckToken_digits w hwne hw).mpr hctr.1)

theorem validateSizeParameter_single (s : JStr) (hne : s ≠ [])
    (hs : ∀ c ∈ s, c.isDigit = true) (hrt : natToChars (digitsVal s) = s) :
    validateSizeParameter s = .ok () := by
  have hxs : 'x' ∉ s := fun hx => absurd (hs 'x' hx) (by decide)
  unfold validateSizeParameter
  rw [map_jsToLower_digits s hs]
  rw [if_neg (fun hand => hxs hand.2)]
  rw [if_neg (by simp [(lenCheckToken_digits s hne hs).mpr hrt])]

theorem validateSize_single (s : JStr) (hx : 'x' ∉ s.map jsToLower) :
    validateSize s = .error reasonFormat := by
  unfold validateSize
  rw [splitOnChar_not_mem hx]
  cases hj : jsNumber (s.map jsToLower) <;> simp [hj]

/-! ## Claims C6 and C7: size-validation -/

/-- C6 (counterexample): the claim states that the two-stage size
validation succeeds only when each token consists purely of decimal
digits.  The code accepts `".25x.25"`: each `".25"` token survives the
first stage because `parseInt` yields `NaN` and `"NaN"` has the same
length 3 as the token, and survives the second stage because
`Number(".25")` is the positive number `0.25`.  Yet `'.'` is not a
decimal digit. -/
theorem c6_size_validation_counterexample :
    toJStr ".25x.25" = toJStr ".25" ++ 'x' :: toJStr ".25" ∧
    (sizeValidation (toJStr ".25x.25")).isOk = true ∧
    ¬ (∀ c ∈ toJStr ".25", c.isDigit = true) := by
  decide

/-- C6 (amended): for size strings `w ++ "x" ++ h` whose tokens are
non-empty digit strings, the two-stage validation
(`validateSizeParameter` then `validateSize`) succeeds iff each token's
parsed integer value renders back to exactly the same digit string (no
sign, no non-canonical leading zero) and lies between 1 and 5000.
Tokens that are not pure digit strings can additionally be accepted
(see the counterexample), which is the only amendment.  Moreover
`"6000x6000"` passes the syntactic stage and fails the bounds check,
`"40xx30"` is rejected with the stage-one height reason, and `"abc"`
passes stage one but is rejected by stage two's format (`NaN`) check. -/
theorem c6_size_validation_amended :
    (∀ w h : JStr, w ≠ [] → h ≠ [] →
      (∀ c ∈ w, c.isDigit = true) → (∀ c ∈ h, c.isDigit = true) →
      ((sizeValidation (w ++ 'x' :: h)).isOk = true ↔
        (natToChars (digitsVal w) = w ∧ 1 ≤ digitsVal w ∧ digitsVal w ≤ 5000 ∧
         natToChars (digitsVal h) = h ∧ 1 ≤ digitsVal h ∧ digitsVal h ≤ 5000))) ∧
    validateSizeParameter (toJStr "6000x6000") = .ok () ∧
    sizeValidation (toJStr "6000x6000") = .error reasonMaximum ∧
    sizeValidation (toJStr "40xx30") = .error (reasonHeight2 []) ∧
    validateSizeParameter (toJStr "abc") = .ok () ∧
    sizeValidation (toJStr "abc") = .error reasonFormat :=
  ⟨fun w h hwne hhne hw hh => sizeValidation_digits_iff w h hwne hhne hw hh,
    by decide, by decide, by decide, by decide, by decide⟩

/-- C6 (witness): the amended equivalence applied to the concrete valid
size string `"400x300"`. -/
theorem c6_size_validation_witness :
    (sizeValidation (toJStr "400" ++ 'x' :: toJStr "300")).isOk = true :=
  (c6_size_validation_amended.1 (toJStr "400") (toJStr "300")
    (by decide) (by decide) (by decide) (by decide)).mpr (by decide)

/-- C7 (counterexample): the claim states that `validateSizeParameter`
accepts every size string consisting solely of decimal digits.  `"00"`
consists solely of decimal digits and contains no `x`, yet the first
stage rejects it: `parseInt("00")` is `0`, whose rendering `"0"` has
length 1 ≠ 2. -/
theorem c7_single_number_counterexample :
    (∀ c ∈ toJStr "00", c.isDigit = true) ∧ 'x' ∉ toJStr "00" ∧
    validateSizeParameter (toJStr "00") = .error (reasonWidth3 (toJStr "00")) := by
  decide

/-- C7 (amended): every non-empty canonical digit string (one whose
parsed value renders back to the same string; at most 15 digits, the
exact-double range) is accepted by the first validation stage
`validateSizeParameter`, while the downstream `validateSize` rejects
every size string without an `x` (after lower-casing): splitting on
`"x"` yields no second token, so the height is `NaN` and the
`InvalidSizeParameter` format error is raised. -/
theorem c7_single_number_amended :
    (∀ s : JStr, s ≠ [] → (∀ c ∈ s, c.isDigit = true) → s.length ≤ 15 →
      natToChars (digitsVal s) = s → validateSizeParameter s = .ok ()) ∧
    (∀ s : JStr, 'x' ∉ s.map jsToLower → validateSize s = .error reasonFormat) :=
  ⟨fun s hne hs _ hrt => validateSizeParameter_single s hne hs hrt,
   fun s hx => validateSize_single s hx⟩

/-- C7 (witness): both halves of the amended claim applied to the
concrete single-number size string `"500"`. -/
theorem c7_single_number_witness :
    validateSizeParameter (toJStr "500") = .ok () ∧
    validateSize (toJStr "500") = .error reasonFormat :=
  ⟨c7_single_number_amended.1 (toJStr "500") (by decide) (by decide) (by decide) (by decide),
   c7_single_number_amended.2 (toJStr "500") (by decide)⟩

/-! ## The object store model -/

/-- A stored object: raw bytes plus the MIME content type recorded at
write time. -/
structure StoredObj where
  data : List Nat
  contentType : JStr
  deriving DecidableEq

/-- Observable state of the bucket: an association list from object
keys to stored objects (later operations keep keys unique). -/
abbrev Store := List (JStr × StoredObj)

/-- S3 `GetObject`(+`HeadObject`) as the pure store view: the object, or
absent. -/
def sget : Store → JStr → Option StoredObj
  | [], _ => none
  | (k, v) :: rest, key => if k = key then some v else sget rest key

/-- S3 `PutObject`: overwrite-or-create. -/
def sput : Store → JStr → StoredObj → Store
  | [], key, v => [(key, v)]
  | (k, w) :: rest, key, v =>
    if k = key then (key, v) :: rest else (k, w) :: sput rest key v

/-- S3 `DeleteObject` on an exact key (deleting an absent key is a
no-op, as in S3). -/
def sdel (store : Store) (key : JStr) : Store :=
  store.filter (fun e => e.1 ≠ key)

theorem sget_sput_same (s : Store) (k : JStr) (v : StoredObj) :
    sget (sput s k v) k = some v := by
  induction s with
  | nil => simp [sput, sget]
  | cons e rest ih =>
    obtain ⟨k', w⟩ := e
    by_cases hk : k' = k
    · simp [sput, hk, sget]
    · simp [sput, hk, sget, ih]

theorem sget_sput_other (s : Store) (k k' : JStr) (v : StoredObj) (h : k' ≠ k) :
    sget (sput s k v) k' = sget s k' := by
  have hne : k ≠ k' := fun he => h he.symm
  induction s with
  | nil => simp [sput, sget, hne]
  | cons e rest ih =>
    obtain ⟨k0, w⟩ := e
    by_cases hk : k0 = k
    · subst hk
      simp [sput, sget, hne]
    · simp [sput, hk, sget, ih]

/-! ## Variant cleanup (claim C3) -/

/-- The leading-slash normalization `removeObject` applies to every key
it deletes (`key.startsWith('/') ? key.substring(1) : key`). -/
def stripSlash (k : JStr) : JStr :=
  match k with
  | c :: r => if c = '/' then r else k
  | [] => k

/-- S3 `ListObjectsV2` with a prefix: all stored keys the prefix is a
prefix of (the store-gateway contract of spec §6). -/
def listObjects (store : Store) (p : JStr) : List JStr :=
  (store.map (·.1)).filter (fun k => p.isPrefixOf k)

/-- `removeObjects` from `s3-wrapper.ts`: strips a leading slash from
each key and issues a batch delete; if the backing store rejects the
batch (`batchRejected`), falls back to deleting the already-stripped
keys one by one through `removeObject`, which strips again. -/
def removeObjects (store : Store) (keys : List JStr) (batchRejected : Bool) : Store :=
  let objects := keys.map stripSlash
  if batchRejected then objects.foldl (fun s k => sdel s (stripSlash k)) store
  else objects.foldl sdel store

/-- `cleanupResizedVariants` from `helpers.ts`: list every stored key
with prefix `key ++ "_"`; when any exist, delete them through
`removeObjects`; otherwise do nothing. -/
def cleanupResizedVariants (store : Store) (key : JStr) (batchRejected : Bool) : Store :=
  let allObjects := listObjects store (key ++ ['_'])
  if allObjects.length > 0 then removeObjects store allObjects batchRejected
  else store

theorem foldl_sdel_eq_filter (ms : List JStr) : ∀ s : Store,
    ms.foldl sdel s = s.filter (fun e => decide (e.1 ∉ ms)) := by
  induction ms with
  | nil => intro s; simp
  | cons m ms ih =>
    intro s
    rw [List.foldl_cons, ih (sdel s m)]
    unfold sdel
    rw [List.filter_filter]
    apply List.filter_congr
    intro e _
    simp [List.mem_cons, not_or, Bool.and_comm]

theorem stripSlash_of_no_slash (k : JStr) (h : k.take 1 ≠ ['/']) :
    stripSlash k = k := by
  cases k with
  | nil => rfl
  | cons c r =>
    have hc : c ≠ '/' := fun he => h (by simp [he])
    simp [stripSlash, hc]

theorem prefix_key_no_slash {key k : JStr} (hk : key.take 1 ≠ ['/'])
    (h : (key ++ ['_']).isPrefixOf k = true) : k.take 1 ≠ ['/'] := by
  obtain ⟨t, rfl⟩ := List.isPrefixOf_iff_prefix.mp h
  cases key with
  | nil => simp
  | cons c r =>
    have hc : c ≠ '/' := fun he => hk (by simp [he])
    simp [hc]

/-- Characterization of `cleanupResizedVariants` for keys that do not
begin with a slash: the final store is exactly the original store with
every object whose key extends `key ++ "_"` removed, independently of
whether the batch delete or the per-object fallback ran. -/
theorem cleanup_filter_spec (store : Store) (key : JStr) (b : Bool)
    (hk : key.take 1 ≠ ['/']) :
    cleanupResizedVariants store key b
      = store.filter (fun e => ! (key ++ ['_']).isPrefixOf e.1) := by
  unfold cleanupResizedVariants
  by_cases hempty : listObjects store (key ++ ['_']) = []
  · rw [hempty]
    simp only [List.length_nil, gt_iff_lt, Nat.lt_irrefl, if_false]
    have hall : ∀ k ∈ store.map (·.1), ¬ ((key ++ ['_']).isPrefixOf k = true) := by
      intro k hkm hpre
      have : k ∈ listObjects store (key ++ ['_']) := List.mem_filter.mpr ⟨hkm, hpre⟩
      rw [hempty] at this
      exact absurd this (List.not_mem_nil k)
    symm
    apply List.filter_eq_self.mpr
    intro e he
    simp only [Bool.not_eq_eq_eq_not, Bool.not_true]
    have := hall e.1 (List.mem_map.mpr ⟨e, he, rfl⟩)
    cases hb : (key ++ ['_']).isPrefixOf e.1
    · rfl
    · exact absurd hb this
  · rw [if_pos (by
      cases hlo : listObjects store (key ++ ['_']) with
      | nil => exact absurd hlo hempty
      | cons a l => simp)]
    set ms := listObjects store (key ++ ['_']) with hms
    have hmsstrip : ms.map stripSlash = ms := by
      apply List.map_congr_left ?_ |>.trans (List.map_id ms)
      intro k hkm
      have hpre : (key ++ ['_']).isPrefixOf k = true := (List.mem_filter.mp hkm).2
      exact stripSlash_of_no_slash k (prefix_key_no_slash hk hpre)
    have hbranch : removeObjects store ms b = ms.foldl sdel store := by
      unfold removeObjects
      cases b
      · simp only [if_false, Bool.false_eq_true, hmsstrip]
      · simp only [if_true]
        rw [show (ms.map stripSlash).foldl (fun s k => sdel s (stripSlash k)) store
            = ((ms.map stripSlash).map stripSlash).foldl sdel store from
          (List.foldl_map stripSlash sdel (ms.map stripSlash) store).symm]
        rw [hmsstrip, hmsstrip]
    rw [hbranch, foldl_sdel_eq_filter ms store]
    apply List.filter_congr
    intro e he
    have hmem : e.1 ∈ store.map (·.1) := List.mem_map.mpr ⟨e, he, rfl⟩
    simp only [decide_not, hms, listObjects]
    cases hb : (key ++ ['_']).isPrefixOf e.1
    · have hnotmem : e.1 ∉ (store.map (·.1)).filter (fun k => (key ++ ['_']).isPrefixOf k) := by
        intro hin
        have hp := (List.mem_filter.mp hin).2
        rw [hb] at hp
        exact Bool.noConfusion hp
      simp [hnotmem]
    · have hin : e.1 ∈ (store.map (·.1)).filter (fun k => (key ++ ['_']).isPrefixOf k) :=
        List.mem_filter.mpr ⟨hmem, hb⟩
      simp [hin]

/-- C3 (counterexample): the claim quantifies over every store state and
key.  For the key `"/k"` and a store holding both `"/k_1"` and `"k_1"`,
`cleanupResizedVariants` lists the matching `"/k_1"` but deletes the
slash-stripped name `"k_1"` instead: the matching object survives and a
non-matching object is removed, contradicting the claimed exact
removal. -/
theorem c3_cleanup_counterexample :
    cleanupResizedVariants
        [(toJStr "/k_1", ⟨[1], []⟩), (toJStr "k_1", ⟨[2], []⟩)] (toJStr "/k") false
      = [(toJStr "/k_1", ⟨[1], []⟩)] ∧
    (toJStr "/k" ++ ['_']).isPrefixOf (toJStr "/k_1") = true ∧
    (toJStr "/k" ++ ['_']).isPrefixOf (toJStr "k_1") = false := by
  decide

/-- C3 (amended): for every store and every key that does not begin
with `"/"` (the delete path strips one leading slash from each listed
key), `cleanupResizedVariants` removes exactly the stored objects whose
key begins with `key ++ "_"` and leaves every other object unchanged;
with no match it is a no-op rather than an error, a second invocation
is a no-op, and the final state is the same whether the batch delete
succeeds or the per-object fallback runs. -/
theorem c3_variant_cleanup_amended : ∀ (store : Store) (key : JStr) (b b' : Bool),
    key.take 1 ≠ ['/'] →
    cleanupResizedVariants store key b
        = store.filter (fun e => ! (key ++ ['_']).isPrefixOf e.1) ∧
    cleanupResizedVariants (cleanupResizedVariants store key b) key b'
        = cleanupResizedVariants store key b ∧
    cleanupResizedVariants store key true = cleanupResizedVariants store key false := by
  intro store key b b' hk
  have h1 := cleanup_filter_spec store key b hk
  refine ⟨h1, ?_, ?_⟩
  · rw [cleanup_filter_spec _ key b' hk, h1, List.filter_filter]
    apply List.filter_congr
    intro e _
    rw [Bool.and_self]
  · rw [cleanup_filter_spec store key true hk, cleanup_filter_spec store key false hk]

/-- C3 (witness): the spec's own example, stored keys
`{"k_400x300", "k_100x100", "other"}` and `cleanup("k")`: the two
variants are deleted and `"other"` is untouched. -/
theorem c3_cleanup_witness :
    cleanupResizedVariants
        [(toJStr "k_400x300", ⟨[1], []⟩), (toJStr "k_100x100", ⟨[2], []⟩),
         (toJStr "other", ⟨[3], []⟩)] (toJStr "k") false
      = [(toJStr "other", ⟨[3], []⟩)] :=
  ((c3_variant_cleanup_amended
      [(toJStr "k_400x300", ⟨[1], []⟩), (toJStr "k_100x100", ⟨[2], []⟩),
       (toJStr "other", ⟨[3], []⟩)] (toJStr "k") false false (by decide)).1).trans
    (by decide)

/-! ## Resize cache manager (claims C2, C8) and image retrieval (claim C9) -/

/-- The `contentType || "image/jpeg"` defaulting `getImage` applies when
serving a stored object whose recorded content type is falsy. -/
def ctDefault (ct : JStr) : JStr :=
  if ct = [] then toJStr "image/jpeg" else ct

/-- `getOrCreateResizedImage` from `image-operations.ts` over the pure
store view: validate the size, fetch `key ++ "_" ++ size`; any
successful fetch is returned as-is (dimensions never re-checked); on
fetch failure resize the original (the sharp kernel is the opaque
`resizeF` parameter), write the result under the variant key with the
original's content type and return it.  The result pairs the new store
state with the served bytes and content type. -/
def getOrCreateResizedImage (resizeF : List Nat → JsNum → JsNum → List Nat)
    (store : Store) (origData : List Nat) (origCt : JStr) (key size : JStr) :
    Except JStr (Store × List Nat × JStr) :=
  match validateSize size with
  | .error e => .error e
  | .ok wh =>
    let resizedKey := key ++ '_' :: size
    match sget store resizedKey with
    | some o => .ok (store, o.data, ctDefault o.contentType)
    | none =>
      let resizedBuffer := resizeF origData wh.1 wh.2
      .ok (sput store resizedKey ⟨resizedBuffer, origCt⟩, resizedBuffer, origCt)

/-- C2: `getOrCreateResizedImage` writes iff the fetch of the variant
key fails.  A successful fetch of `key ++ "_" ++ size` is returned
immediately with the store unchanged and no re-validation; on fetch
failure the resized original is written exactly once under the variant
key with the original's content type and returned; and a second
identical call then hits the cache, returning the stored bytes with no
further write.  (In the pure store view a fetch fails exactly when the
key is absent; the code treats every other retrieval error the same
way, see C9.) -/
theorem c2_get_or_create_cache :
    ∀ (resizeF : List Nat → JsNum → JsNum → List Nat) (store : Store)
      (origData : List Nat) (origCt : JStr) (key size : JStr) (w h : JsNum),
    validateSize size = .ok (w, h) →
    (∀ o, sget store (key ++ '_' :: size) = some o →
      getOrCreateResizedImage resizeF store origData origCt key size
        = .ok (store, o.data, ctDefault o.contentType)) ∧
    (sget store (key ++ '_' :: size) = none →
      getOrCreateResizedImage resizeF store origData origCt key size
        = .ok (sput store (key ++ '_' :: size) ⟨resizeF origData w h, origCt⟩,
            resizeF origData w h, origCt) ∧
      sget (sput store (key ++ '_' :: size) ⟨resizeF origData w h, origCt⟩)
          (key ++ '_' :: size) = some ⟨resizeF origData w h, origCt⟩ ∧
      getOrCreateResizedImage resizeF
          (sput store (key ++ '_' :: size) ⟨resizeF origData w h, origCt⟩)
          origData origCt key size
        = .ok (sput store (key ++ '_' :: size) ⟨resizeF origData w h, origCt⟩,
            resizeF origData w h, ctDefault origCt)) := by
  intro resizeF store origData origCt key size w h hvs
  constructor
  · intro o ho
    simp [getOrCreateResizedImage, hvs, ho]
  · intro hn
    refine ⟨by simp [getOrCreateResizedImage, hvs, hn], sget_sput_same _ _ _, ?_⟩
    simp [getOrCreateResizedImage, hvs, sget_sput_same]

/-- C2 (witness): a concrete miss-then-hit run with an identity resize
kernel, the empty store, key `"k"` and size `"400x300"`. -/
theorem c2_get_or_create_witness :
    getOrCreateResizedImage (fun d _ _ => d) [] [7] (toJStr "image/png")
        (toJStr "k") (toJStr "400x300")
      = .ok (sput [] (toJStr "k" ++ '_' :: toJStr "400x300") ⟨[7], toJStr "image/png"⟩,
          [7], toJStr "image/png") ∧
    sget (sput [] (toJStr "k" ++ '_' :: toJStr "400x300") ⟨[7], toJStr "image/png"⟩)
        (toJStr "k" ++ '_' :: toJStr "400x300") = some ⟨[7], toJStr "image/png"⟩ ∧
    getOrCreateResizedImage (fun d _ _ => d)
        (sput [] (toJStr "k" ++ '_' :: toJStr "400x300") ⟨[7], toJStr "image/png"⟩)
        [7] (toJStr "image/png") (toJStr "k") (toJStr "400x300")
      = .ok (sput [] (toJStr "k" ++ '_' :: toJStr "400x300") ⟨[7], toJStr "image/png"⟩,
          [7], ctDefault (toJStr "image/png")) :=
  (c2_get_or_create_cache (fun d _ _ => d) [] [7] (toJStr "image/png")
    (toJStr "k") (toJStr "400x300") (.fin 400 0) (.fin 300 0) (by decide)).2 rfl

/-- Outcome of one gateway retrieval
(`getObjectWithMetadata`): a successful response (whose body may still
be null), a not-found error, or any other retrieval failure
(connectivity, metadata, stream). -/
inductive GetOutcome where
  | found (data : Option (List Nat)) (contentType : Option JStr)
  | errNotFound
  | errOther
  deriving DecidableEq

/-- Error code of the `ImageNotFound` exception (`exceptions.ts`). -/
def imageNotFoundCode : JStr := toJStr "IMAGE_NOT_FOUND"

/-- The `contentType || "image/jpeg"` defaulting over the gateway's
optional content type. -/
def ctOrJpeg (ct : Option JStr) : JStr :=
  match ct with
  | some c => ctDefault c
  | none => toJStr "image/jpeg"

/-- `getImage` from `image-operations.ts` over an abstract gateway: a
successful fetch with a body is served with the recorded (or default)
content type; a null body raises `ImageNotFound`; and the surrounding
`catch` turns every thrown retrieval error — not-found or otherwise —
into `ImageNotFound` as well. -/
def getImage (gw : JStr → GetOutcome) (key : JStr) : Except JStr (List Nat × JStr) :=
  match gw key with
  | .found (some d) ct => .ok (d, ctOrJpeg ct)
  | .found none _ => .error imageNotFoundCode
  | .errNotFound => .error imageNotFoundCode
  | .errOther => .error imageNotFoundCode

/-- C9 (counterexample): the claim says no retrieval failure other than
absence is reported as `ImageNotFound`.  A gateway failing with a
non-not-found error (`errOther`) still makes `getImage` raise
`ImageNotFound`, because its `catch` block swallows every error. -/
theorem c9_notfound_counterexample :
    getImage (fun _ => .errOther) (toJStr "k") = .error imageNotFoundCode ∧
    GetOutcome.errOther ≠ GetOutcome.errNotFound := by
  decide

/-- C9 (amended): `getImage` succeeds exactly when the gateway returns
a non-null body, and every failure — absence, null body, or any other
retrieval error — is reported as the single `ImageNotFound` condition;
the caller cannot distinguish absence from other failures. -/
theorem c9_notfound_amended : ∀ (gw : JStr → GetOutcome) (key : JStr),
    ((getImage gw key).isOk = true ↔ ∃ d ct, gw key = .found (some d) ct) ∧
    (∀ e, getImage gw key = .error e → e = imageNotFoundCode) := by
  intro gw key
  unfold getImage
  cases hg : gw key with
  | found data ct =>
    cases data with
    | some d =>
      refine ⟨⟨fun _ => ⟨d, ct, rfl⟩, fun _ => rfl⟩, fun e he => ?_⟩
      exact absurd he (by simp)
    | none =>
      refine ⟨⟨fun hok => absurd hok (by simp [Except.isOk, Except.toBool]),
        fun hex => ?_⟩, fun e he => ?_⟩
      · obtain ⟨d, ct', hfound⟩ := hex
        exact absurd hfound (by simp)
      · injection he with he1
        exact he1.symm
  | errNotFound =>
    refine ⟨⟨fun hok => absurd hok (by simp [Except.isOk, Except.toBool]),
      fun hex => ?_⟩, fun e he => ?_⟩
    · obtain ⟨d, ct', hfound⟩ := hex
      exact absurd hfound (by simp)
    · injection he with he1
      exact he1.symm
  | errOther =>
    refine ⟨⟨fun hok => absurd hok (by simp [Except.isOk, Except.toBool]),
      fun hex => ?_⟩, fun e he => ?_⟩
    · obtain ⟨d, ct', hfound⟩ := hex
      exact absurd hfound (by simp)
    · injection he with he1
      exact he1.symm

/-- C9 (witness): the amended equivalence applied to a gateway that
returns a body, and the error normalization applied to a failing
gateway. -/
theorem c9_notfound_witness :
    (getImage (fun _ => GetOutcome.found (some [1]) none) (toJStr "k")).isOk = true ∧
    imageNotFoundCode = imageNotFoundCode :=
  ⟨((c9_notfound_amended (fun _ => GetOutcome.found (some [1]) none) (toJStr "k")).1).mpr
      ⟨[1], none, rfl⟩,
   (c9_notfound_amended (fun _ => GetOutcome.errOther) (toJStr "k")).2
      imageNotFoundCode (by decide)⟩

/-- Modelled from the spec: the sharp resize kernel, which is an
external image-processing capability the repository only configures
(`getOrCreateResizedImage` passes `fit: 'inside'`,
`withoutEnlargement: true`, `kernel: 'lanczos3'`).  Per the spec's
fit-inside contract both axes are scaled by the single factor
`min(1, reqW/origW, reqH/origH)` — never above 1 — and each output
dimension is the rounded scaled original dimension. -/
def fitInsideDims (origW origH reqW reqH : Nat) : Nat × Nat :=
  let s : ℚ := min 1 (min ((reqW : ℚ) / (origW : ℚ)) ((reqH : ℚ) / (origH : ℚ)))
  ((round ((origW : ℚ) * s)).toNat, (round ((origH : ℚ) * s)).toNat)

theorem round_scale_toNat_le (W : Nat) (s : ℚ) (h1 : s ≤ 1) :
    (round ((W : ℚ) * s)).toNat ≤ W := by
  have hle : (W : ℚ) * s ≤ (W : ℚ) := by
    calc (W : ℚ) * s ≤ (W : ℚ) * 1 := mul_le_mul_of_nonneg_left h1 (by positivity)
      _ = (W : ℚ) := mul_one _
  have h2 : round ((W : ℚ) * s) ≤ round ((W : ℚ)) := by
    rw [round_eq, round_eq]
    exact Int.floor_le_floor (by linarith)
  rw [round_natCast] at h2
  exact Int.toNat_le.mpr h2

/-- C8 (spec-modelled): with the fit-inside, no-upscale kernel the code
configures, the resized derivative never exceeds the original's pixel
dimensions in either axis, and both axes are scaled by one common
factor between 0 and 1 (the aspect-preserving fit-inside policy, exact
up to integer rounding of each axis); in particular resizing a 200×150
original with the size spec `"800x600"` yields exactly 200×150. -/
theorem c8_no_upscale_fit_inside :
    (∀ origW origH reqW reqH : Nat,
      (fitInsideDims origW origH reqW reqH).1 ≤ origW ∧
      (fitInsideDims origW origH reqW reqH).2 ≤ origH ∧
      ∃ s : ℚ, 0 ≤ s ∧ s ≤ 1 ∧
        fitInsideDims origW origH reqW reqH
          = ((round ((origW : ℚ) * s)).toNat, (round ((origH : ℚ) * s)).toNat)) ∧
    fitInsideDims 200 150 800 600 = (200, 150) := by
  constructor
  · intro origW origH reqW reqH
    set s : ℚ := min 1 (min ((reqW : ℚ) / (origW : ℚ)) ((reqH : ℚ) / (origH : ℚ))) with hs
    have h1 : s ≤ 1 := min_le_left _ _
    have h0 : 0 ≤ s := le_min (by norm_num) (le_min (by positivity) (by positivity))
    exact ⟨round_scale_toNat_le origW s h1, round_scale_toNat_le origH s h1,
      s, h0, h1, rfl⟩
  · have hmin : min (1 : ℚ) (min ((800 : ℚ) / (200 : ℚ)) ((600 : ℚ) / (150 : ℚ))) = 1 := by
      norm_num
    show ((round ((200 : ℚ) * _)).toNat, (round ((150 : ℚ) * _)).toNat) = _
    rw [show ((200 : Nat) : ℚ) = (200 : ℚ) from by norm_num,
      show ((150 : Nat) : ℚ) = (150 : ℚ) from by norm_num,
      show ((800 : Nat) : ℚ) = (800 : ℚ) from by norm_num,
      show ((600 : Nat) : ℚ) = (600 : ℚ) from by norm_num, hmin]
    norm_num
    exact ⟨by decide, by decide⟩

/-! ## Upload batch (claims C4, C10) -/

/-- One uploaded multipart file: name, `file.type` MIME string, raw
bytes, and whether the external sharp metadata parse succeeds on them
(`imageToBuffer` validity). -/
structure UploadFile where
  name : JStr
  mimeType : JStr
  data : List Nat
  sharpOk : Bool
  deriving DecidableEq

/-- Error code of the `UnsupportedImageFormat` exception. -/
def unsupportedImageFormatCode : JStr := toJStr "UNSUPPORTED_IMAGE_FORMAT"

/-- Error code of the `InvalidImageProvided` exception. -/
def invalidImageProvidedCode : JStr := toJStr "INVALID_IMAGE_PROVIDED"

/-- Error code of the `PrefixRequired` exception. -/
def prefixRequiredCode : JStr := toJStr "PREFIX_REQUIRED"

/-- Error code of the `InvalidPrefixFormat` exception. -/
def invalidPrefixFormatCode : JStr := toJStr "INVALID_PREFIX_FORMAT"

/-- Error code of the `NoFileProvided` exception. -/
def noFileProvidedCode : JStr := toJStr "NO_FILE_PROVIDED"

/-- The upload path's prefix format check, `^[a-zA-Z0-9-_]+$`. -/
def prefixOk (p : JStr) : Bool :=
  p ≠ [] ∧ p.all (fun c => c.isAlphanum ∨ c = '-' ∨ c = '_')

/-- The validations one upload pipeline runs before writing: an
`image/` content type, non-empty bytes, and a successful sharp
metadata parse. -/
def validFile (f : UploadFile) : Bool :=
  (toJStr "image/").isPrefixOf f.mimeType ∧ f.data ≠ [] ∧ f.sharpOk

/-- The storage key generated for one uploaded file:
`` `${prefix}/${timestamp}-${uuid}` ``. -/
def mkUploadKey (p : JStr) (ts : Nat) (uuid : JStr) : JStr :=
  p ++ '/' :: (natToChars ts ++ '-' :: uuid)

/-- One file's upload pipeline (the body of the `files.map` callback in
`uploadImages`): validate the content type, validate the bytes
(`imageToBuffer`), then clean up pre-existing variants of the fresh key
and write the object.  Returns the new store and the generated key. -/
def processFile (p : JStr) (store : Store) (f : UploadFile) (ts : Nat) (uuid : JStr) :
    Except JStr (Store × JStr) :=
  if ¬ (toJStr "image/").isPrefixOf f.mimeType then .error unsupportedImageFormatCode
  else if f.data = [] ∨ ¬ f.sharpOk then .error invalidImageProvidedCode
  else
    let key := mkUploadKey p ts uuid
    let s1 := cleanupResizedVariants store key false
    .ok (sput s1 key ⟨f.data, f.mimeType⟩, key)

/-- The pipelines of one batch.  JavaScript `Promise.all` rejects as
soon as one pipeline rejects but cancels none of the others, so every
pipeline runs to completion and every passing file's write lands in the
store even when the batch response is a failure; the response carries
the first failing pipeline's error (which one wins in the source is a
scheduling race — no theorem below depends on it). -/
def uploadPipelines (p : JStr) (store : Store) :
    List (UploadFile × Nat × JStr) → Store × Except JStr (List JStr)
  | [] => (store, .ok [])
  | (f, ts, u) :: rest =>
    match processFile p store f ts u with
    | .error e =>
      let r := uploadPipelines p store rest
      (r.1, .error e)
    | .ok sk =>
      let r := uploadPipelines p sk.1 rest
      (r.1, match r.2 with
            | .ok keys => .ok (sk.2 :: keys)
            | .error e => .error e)

/-- `uploadImages` from `routes/upload.ts`: prefix presence and format
checks, the no-file check, then the concurrent per-file pipelines. -/
def uploadImages (p : JStr) (store : Store) (files : List UploadFile)
    (ids : List (Nat × JStr)) : Store × Except JStr (List JStr) :=
  if p = [] then (store, .error prefixRequiredCode)
  else if ¬ prefixOk p then (store, .error invalidPrefixFormatCode)
  else if files = [] then (store, .error noFileProvidedCode)
  else uploadPipelines p store (files.zip ids)

/-- Characterization of the final store: the writes of exactly the
files that pass validation, in order (the spec-side description of the
amended claim's "partial commits persist"). -/
def uploadWrites (p : JStr) (store : Store) :
    List (UploadFile × Nat × JStr) → Store
  | [] => store
  | (f, ts, u) :: rest =>
    if validFile f then
      uploadWrites p
        (sput (cleanupResizedVariants store (mkUploadKey p ts u) false)
          (mkUploadKey p ts u) ⟨f.data, f.mimeType⟩) rest
    else uploadWrites p store rest

theorem processFile_ok (p : JStr) (store : Store) (f : UploadFile) (ts : Nat)
    (u : JStr) (hv : validFile f = true) :
    processFile p store f ts u
      = .ok (sput (cleanupResizedVariants store (mkUploadKey p ts u) false)
          (mkUploadKey p ts u) ⟨f.data, f.mimeType⟩, mkUploadKey p ts u) := by
  unfold validFile at hv
  simp only [Bool.decide_and, Bool.and_eq_true, decide_eq_true_eq] at hv
  unfold processFile
  rw [if_neg (by simp [hv.1]), if_neg (by simp [hv.2.1, hv.2.2])]

theorem processFile_err (p : JStr) (store : Store) (f : UploadFile) (ts : Nat)
    (u : JStr) (hv : validFile f = false) :
    ∃ e, processFile p store f ts u = .error e := by
  unfold validFile at hv
  unfold processFile
  by_cases h1 : (toJStr "image/").isPrefixOf f.mimeType = true
  · by_cases h2 : f.data = [] ∨ ¬ f.sharpOk = true
    · exact ⟨invalidImageProvidedCode, by rw [if_neg (by simp [h1]), if_pos h2]⟩
    · exfalso
      push_neg at h2
      have htrue : validFile f = true := by
        simp [validFile, h1, h2.1, h2.2]
      unfold validFile at htrue
      rw [htrue] at hv
      exact Bool.noConfusion hv
  · exact ⟨unsupportedImageFormatCode, by rw [if_pos h1]⟩

theorem uploadPipelines_spec (p : JStr) :
    ∀ (l : List (UploadFile × Nat × JStr)) (store : Store),
    (uploadPipelines p store l).1 = uploadWrites p store l ∧
    ((uploadPipelines p store l).2.isOk = true ↔ ∀ x ∈ l, validFile x.1 = true) := by
  intro l
  induction l with
  | nil =>
    intro store
    refine ⟨rfl, ?_⟩
    constructor
    · intro _ y hy
      exact absurd hy (List.not_mem_nil y)
    · intro _
      rfl
  | cons x rest ih =>
    intro store
    obtain ⟨f, ts, u⟩ := x
    cases hv : validFile f
    · obtain ⟨e, he⟩ := processFile_err p store f ts u hv
      unfold uploadPipelines uploadWrites
      rw [he, hv]
      simp only [Bool.false_eq_true, if_false]
      refine ⟨(ih store).1, ?_⟩
      simp only [Except.isOk, Except.toBool, Bool.false_eq_true, false_iff]
      intro hall
      have := hall (f, ts, u) (by simp)
      rw [hv] at this
      exact Bool.noConfusion this
    · have he := processFile_ok p store f ts u hv
      unfold uploadPipelines uploadWrites
      rw [he, hv]
      simp only [if_true]
      set store' := sput (cleanupResizedVariants store (mkUploadKey p ts u) false)
        (mkUploadKey p ts u) ⟨f.data, f.mimeType⟩ with hstore'
      refine ⟨(ih store').1, ?_⟩
      have hih := (ih store').2
      constructor
      · intro hok
        intro y hy
        rcases List.mem_cons.mp hy with rfl | hmem
        · exact hv
        · refine (hih.mp ?_) y hmem
          cases hr : (uploadPipelines p store' rest).2 with
          | ok keys => rfl
          | error e =>
            rw [hr] at hok
            exact absurd hok (by simp [Except.isOk, Except.toBool])
      · intro hall
        have hrest := hih.mpr (fun y hy => hall y (by simp [hy]))
        cases hr : (uploadPipelines p store' rest).2 with
        | ok keys => rfl
        | error e =>
          rw [hr] at hrest
          exact absurd hrest (by simp [Except.isOk, Except.toBool])

/-- C4 (counterexample): the claim says a failing batch leaves the
store unchanged.  With a valid PNG first and a `text/plain` second
file, the batch response is a single failure, yet the first pipeline's
write has landed: the store gained the first file's object. -/
theorem c4_upload_atomicity_counterexample :
    uploadImages (toJStr "p") []
        [⟨toJStr "a.png", toJStr "image/png", [7], true⟩,
         ⟨toJStr "b.txt", toJStr "text/plain", [8], true⟩]
        [(1, toJStr "u1"), (2, toJStr "u2")]
      = ([(mkUploadKey (toJStr "p") 1 (toJStr "u1"), ⟨[7], toJStr "image/png"⟩)],
          .error unsupportedImageFormatCode) ∧
    [(mkUploadKey (toJStr "p") 1 (toJStr "u1"), ⟨[7], toJStr "image/png"⟩)]
      ≠ ([] : Store) := by
  decide

/-- C4 (amended): the batch response is all-or-nothing — it succeeds
iff every file passes validation — but the store is not: each file
that passes validation is written even when another file's failure
fails the whole response, because `Promise.all` rejects without
cancelling the in-flight pipelines.  The final store is exactly the
writes of the valid files. -/
theorem c4_upload_atomicity_amended :
    ∀ (p : JStr) (store : Store) (files : List UploadFile) (ids : List (Nat × JStr)),
    p ≠ [] → prefixOk p = true → files ≠ [] → files.length = ids.length →
    ((uploadImages p store files ids).2.isOk = true ↔ ∀ f ∈ files, validFile f = true) ∧
    (uploadImages p store files ids).1 = uploadWrites p store (files.zip ids) := by
  intro p store files ids hp hpok hf hlen
  unfold uploadImages
  rw [if_neg hp, if_neg (by simp [hpok]), if_neg hf]
  have hspec := uploadPipelines_spec p (files.zip ids) store
  refine ⟨?_, hspec.1⟩
  rw [hspec.2]
  have hmapf : (files.zip ids).map Prod.fst = files :=
    List.map_fst_zip files ids (le_of_eq hlen)
  constructor
  · intro hall f hfm
    have hfm' : f ∈ (files.zip ids).map Prod.fst := by rw [hmapf]; exact hfm
    obtain ⟨x, hx, hfx⟩ := List.mem_map.mp hfm'
    rw [← hfx]
    exact hall x hx
  · intro hall x hx
    have : x.1 ∈ (files.zip ids).map Prod.fst := List.mem_map.mpr ⟨x, hx, rfl⟩
    rw [hmapf] at this
    exact hall x.1 this

/-- C4 (witness): a batch of one valid file succeeds, and its final
store is the valid files' writes. -/
theorem c4_upload_atomicity_witness :
    (uploadImages (toJStr "p") [] [⟨toJStr "a.png", toJStr "image/png", [7], true⟩]
        [(1, toJStr "u1")]).2.isOk = true ∧
    (uploadImages (toJStr "p") [] [⟨toJStr "a.png", toJStr "image/png", [7], true⟩]
        [(1, toJStr "u1")]).1
      = uploadWrites (toJStr "p") []
          ([⟨toJStr "a.png", toJStr "image/png", [7], true⟩].zip [(1, toJStr "u1")]) :=
  ⟨(c4_upload_atomicity_amended (toJStr "p") []
      [⟨toJStr "a.png", toJStr "image/png", [7], true⟩] [(1, toJStr "u1")]
      (by decide) (by decide) (by decide) (by decide)).1.mpr (by decide),
   (c4_upload_atomicity_amended (toJStr "p") []
      [⟨toJStr "a.png", toJStr "image/png", [7], true⟩] [(1, toJStr "u1")]
      (by decide) (by decide) (by decide) (by decide)).2⟩

/-- Character set of `crypto.randomUUID()` output: lower-case
hexadecimal digits and hyphens (RFC 4122 textual form). -/
def uuidOk (u : JStr) : Bool :=
  u.all (fun c => c.isDigit ∨ ('a' ≤ c ∧ c ≤ 'f') ∨ c = '-')

theorem prefixOk_no_slash {p : JStr} (hp : prefixOk p = true) : '/' ∉ p := by
  intro hmem
  unfold prefixOk at hp
  simp only [Bool.decide_and, Bool.and_eq_true, decide_eq_true_eq, List.all_eq_true] at hp
  have := hp.2 '/' hmem
  exact absurd this (by decide)

theorem prefix_cancel_of_not_mem {c : Char} :
    ∀ (a b ys zs : JStr), c ∉ a → c ∉ b →
    (a ++ c :: ys) <+: (b ++ c :: zs) → a = b ∧ ys <+: zs := by
  intro a
  induction a with
  | nil =>
    intro b ys zs _ hb hpre
    cases b with
    | nil =>
      simp only [List.nil_append] at hpre
      exact ⟨rfl, (List.cons_prefix_cons.mp hpre).2⟩
    | cons y b' =>
      simp only [List.nil_append, List.cons_append] at hpre
      have hcy : c = y := (List.cons_prefix_cons.mp hpre).1
      exact absurd (by simp [hcy] : c ∈ y :: b') hb
  | cons x a' ih =>
    intro b ys zs ha hb hpre
    cases b with
    | nil =>
      simp only [List.cons_append, List.nil_append] at hpre
      have hxc : x = c := (List.cons_prefix_cons.mp hpre).1
      exact absurd (by simp [hxc] : c ∈ x :: a') ha
    | cons y b' =>
      simp only [List.cons_append] at hpre
      have hxy := List.cons_prefix_cons.mp hpre
      have hrec := ih b' ys zs (fun hm => ha (by simp [hm]))
        (fun hm => hb (by simp [hm])) hxy.2
      exact ⟨by rw [hxy.1, hrec.1], hrec.2⟩

theorem natToChars_no_underscore (t : Nat) : '_' ∉ natToChars t := by
  intro hmem
  have := natToChars_digits t '_' hmem
  exact absurd this (by decide)

theorem uuid_no_underscore {u : JStr} (hu : uuidOk u = true) : '_' ∉ u := by
  intro hmem
  unfold uuidOk at hu
  rw [List.all_eq_true] at hu
  have := hu '_' hmem
  simp only [decide_eq_true_eq] at this
  rcases this with h1 | h2 | h3
  · exact absurd h1 (by decide)
  · exact absurd h2 (by decide)
  · exact absurd h3 (by decide)

/-- C10: every upload-generated storage key has the form
`prefix ++ "/" ++ timestamp ++ "-" ++ uuid`; the portion after the
slash consists only of decimal digits, lower-case hex digits and
hyphens — never an underscore — and consequently no upload key
extended with `"_"` is a prefix of another upload key, so the variant
listing in `cleanupResizedVariants` can only ever match derivative
objects, never another original. -/
theorem c10_upload_key_shape :
    ∀ (p1 p2 : JStr) (t1 t2 : Nat) (u1 u2 : JStr),
    prefixOk p1 = true → prefixOk p2 = true →
    uuidOk u1 = true → uuidOk u2 = true →
    (∀ c ∈ natToChars t2 ++ '-' :: u2,
      c.isDigit = true ∨ ('a' ≤ c ∧ c ≤ 'f') ∨ c = '-') ∧
    '_' ∉ natToChars t2 ++ '-' :: u2 ∧
    ¬ (mkUploadKey p1 t1 u1 ++ ['_']) <+: mkUploadKey p2 t2 u2 := by
  intro p1 p2 t1 t2 u1 u2 hp1 hp2 hu1 hu2
  have htail2 : '_' ∉ natToChars t2 ++ '-' :: u2 := by
    intro hmem
    rcases List.mem_append.mp hmem with hm | hm
    · exact natToChars_no_underscore t2 hm
    · rcases List.mem_cons.mp hm with he | hm2
      · exact absurd he (by decide)
      · exact uuid_no_underscore hu2 hm2
  refine ⟨?_, htail2, ?_⟩
  · intro c hc
    rcases List.mem_append.mp hc with hm | hm
    · exact Or.inl (natToChars_digits t2 c hm)
    · rcases List.mem_cons.mp hm with he | hm2
      · exact Or.inr (Or.inr he)
      · unfold uuidOk at hu2
        rw [List.all_eq_true] at hu2
        have := hu2 c hm2
        simpa using this
  · intro hpre
    unfold mkUploadKey at hpre
    rw [show (p1 ++ '/' :: (natToChars t1 ++ '-' :: u1)) ++ ['_']
        = p1 ++ '/' :: ((natToChars t1 ++ '-' :: u1) ++ ['_']) from by simp] at hpre
    have hc := prefix_cancel_of_not_mem p1 p2 ((natToChars t1 ++ '-' :: u1) ++ ['_'])
      (natToChars t2 ++ '-' :: u2) (prefixOk_no_slash hp1) (prefixOk_no_slash hp2) hpre
    have hmem : '_' ∈ natToChars t2 ++ '-' :: u2 :=
      hc.2.subset (by simp)
    exact htail2 hmem

/-- C10 (witness): two concrete upload keys with the same prefix; the
first extended with an underscore is not a prefix of the second. -/
theorem c10_upload_key_witness :
    ¬ (mkUploadKey (toJStr "img") 5 (toJStr "ab-cd") ++ ['_'])
        <+: mkUploadKey (toJStr "img") 17 (toJStr "ef") :=
  (c10_upload_key_shape (toJStr "img") (toJStr "img") 5 17 (toJStr "ab-cd") (toJStr "ef")
    (by decide) (by decide) (by decide) (by decide)).2.2

/-! ## Base64, the key codec's transport encoding (claims C1, C5) -/

/-- The standard base64 alphabet character for a sextet `n < 64`. -/
def b64Char (n : Nat) : Char :=
  if n < 26 then Char.ofNat (65 + n)
  else if n < 52 then Char.ofNat (97 + (n - 26))
  else if n < 62 then Char.ofNat (48 + (n - 52))
  else if n = 62 then '+'
  else '/'

/-- Sextet value of a base64 alphabet character; `none` for everything
else (including `=`), matching the lenient Node decoder that skips
characters outside the alphabet. -/
def b64DecChar (c : Char) : Option Nat :=
  if 65 ≤ c.toNat ∧ c.toNat ≤ 90 then some (c.toNat - 65)
  else if 97 ≤ c.toNat ∧ c.toNat ≤ 122 then some (c.toNat - 97 + 26)
  else if 48 ≤ c.toNat ∧ c.toNat ≤ 57 then some (c.toNat - 48 + 52)
  else if c = '+' then some 62
  else if c = '/' then some 63
  else none

theorem b64_round_fin : ∀ i : Fin 64, b64DecChar (b64Char i.val) = some i.val := by decide

theorem b64_round {n : Nat} (h : n < 64) : b64DecChar (b64Char n) = some n :=
  b64_round_fin ⟨n, h⟩

/-- Standard base64 encoding with `=` padding (Node
`buffer.toString('base64')`). -/
def b64Encode : List Nat → JStr
  | [] => []
  | [b1] => [b64Char (b1 / 4), b64Char (b1 % 4 * 16), '=', '=']
  | [b1, b2] => [b64Char (b1 / 4), b64Char (b1 % 4 * 16 + b2 / 16), b64Char (b2 % 16 * 4), '=']
  | b1 :: b2 :: b3 :: rest =>
    b64Char (b1 / 4) :: b64Char (b1 % 4 * 16 + b2 / 16) ::
    b64Char (b2 % 16 * 4 + b3 / 64) :: b64Char (b3 % 64) :: b64Encode rest

/-- Byte reconstruction from the surviving sextets: groups of four give
three bytes, a trailing group of three gives two, of two gives one, and
a single leftover sextet is dropped — Node's lenient base64 decode. -/
def b64DecodeSextets : List Nat → List Nat
  | s1 :: s2 :: s3 :: s4 :: rest =>
    (s1 * 4 + s2 / 16) :: (s2 % 16 * 16 + s3 / 4) :: (s3 % 4 * 64 + s4) :: b64DecodeSextets rest
  | [s1, s2, s3] => [s1 * 4 + s2 / 16, s2 % 16 * 16 + s3 / 4]
  | [s1, s2] => [s1 * 4 + s2 / 16]
  | _ => []

/-- Node `Buffer.from(string, 'base64')`: ignore every character
outside the alphabet (`=` included) and rebuild the bytes. -/
def b64DecodeLenient (s : JStr) : List Nat :=
  b64DecodeSextets (s.filterMap b64DecChar)

theorem b64_decode_encode_bounded : ∀ (n : Nat) (bytes : List Nat), bytes.length ≤ n →
    (∀ b ∈ bytes, b < 256) → b64DecodeLenient (b64Encode bytes) = bytes := by
  intro n
  induction n with
  | zero =>
    intro bytes hlen _
    have : bytes = [] := List.eq_nil_of_length_eq_zero (by omega)
    rw [this]
    rfl
  | succ n ih =>
    intro bytes hlen hb
    match bytes with
    | [] => rfl
    | [b1] =>
      have h1 : b1 < 256 := hb b1 (by simp)
      show b64DecodeSextets (List.filterMap b64DecChar
        [b64Char (b1 / 4), b64Char (b1 % 4 * 16), '=', '=']) = [b1]
      rw [List.filterMap_cons, b64_round (by omega), List.filterMap_cons,
        b64_round (by omega), List.filterMap_cons, List.filterMap_cons]
      show b64DecodeSextets [b1 / 4, b1 % 4 * 16] = [b1]
      show [b1 / 4 * 4 + b1 % 4 * 16 / 16] = [b1]
      congr 1
      omega
    | [b1, b2] =>
      have h1 : b1 < 256 := hb b1 (by simp)
      have h2 : b2 < 256 := hb b2 (by simp)
      show b64DecodeSextets (List.filterMap b64DecChar
        [b64Char (b1 / 4), b64Char (b1 % 4 * 16 + b2 / 16), b64Char (b2 % 16 * 4), '=']) = [b1, b2]
      rw [List.filterMap_cons, b64_round (by omega), List.filterMap_cons,
        b64_round (by omega), List.filterMap_cons, b64_round (by omega), List.filterMap_cons]
      show b64DecodeSextets [b1 / 4, b1 % 4 * 16 + b2 / 16, b2 % 16 * 4] = [b1, b2]
      show [b1 / 4 * 4 + (b1 % 4 * 16 + b2 / 16) / 16,
        (b1 % 4 * 16 + b2 / 16) % 16 * 16 + b2 % 16 * 4 / 4] = [b1, b2]
      congr 1
      · omega
      · congr 1
        omega
    | b1 :: b2 :: b3 :: rest =>
      have h1 : b1 < 256 := hb b1 (by simp)
      have h2 : b2 < 256 := hb b2 (by simp)
      have h3 : b3 < 256 := hb b3 (by simp)
      have hrest : rest.length ≤ n := by
        have := hlen
        simp only [List.length_cons] at this
        omega
      have hbrest : ∀ b ∈ rest, b < 256 := fun b hbm => hb b (by simp [hbm])
      show b64DecodeSextets (List.filterMap b64DecChar
        (b64Char (b1 / 4) :: b64Char (b1 % 4 * 16 + b2 / 16) ::
         b64Char (b2 % 16 * 4 + b3 / 64) :: b64Char (b3 % 64) :: b64Encode rest)) = _
      rw [List.filterMap_cons, b64_round (by omega), List.filterMap_cons,
        b64_round (by omega), List.filterMap_cons, b64_round (by omega),
        List.filterMap_cons, b64_round (by omega)]
      show (b1 / 4 * 4 + (b1 % 4 * 16 + b2 / 16) / 16)
          :: ((b1 % 4 * 16 + b2 / 16) % 16 * 16 + (b2 % 16 * 4 + b3 / 64) / 4)
          :: ((b2 % 16 * 4 + b3 / 64) % 4 * 64 + b3 % 64)
          :: b64DecodeSextets (List.filterMap b64DecChar (b64Encode rest))
        = b1 :: b2 :: b3 :: rest
      have hihr : b64DecodeSextets (List.filterMap b64DecChar (b64Encode rest)) = rest :=
        ih rest hrest hbrest
      rw [hihr]
      congr 1
      · omega
      · congr 1
        · omega
        · congr 1
          omega

theorem b64_decode_encode (bytes : List Nat) (hb : ∀ b ∈ bytes, b < 256) :
    b64DecodeLenient (b64Encode bytes) = bytes :=
  b64_decode_encode_bounded bytes.length bytes (le_refl _) hb

theorem b64Encode_chars : ∀ (n : Nat) (bytes : List Nat), bytes.length ≤ n →
    (∀ b ∈ bytes, b < 256) →
    ∀ c ∈ b64Encode bytes, c = '=' ∨ ∃ m, m < 64 ∧ c = b64Char m := by
  intro n
  induction n with
  | zero =>
    intro bytes hlen _
    have : bytes = [] := List.eq_nil_of_length_eq_zero (by omega)
    rw [this]
    intro c hc
    exact absurd hc (List.not_mem_nil c)
  | succ n ih =>
    intro bytes hlen hb c hc
    match bytes with
    | [] => exact absurd hc (List.not_mem_nil c)
    | [b1] =>
      have h1 : b1 < 256 := hb b1 (by simp)
      rcases hc with _ | ⟨_, _ | ⟨_, _ | ⟨_, _ | ⟨_, h⟩⟩⟩⟩
      · exact Or.inr ⟨b1 / 4, by omega, rfl⟩
      · exact Or.inr ⟨b1 % 4 * 16, by omega, rfl⟩
      · exact Or.inl rfl
      · exact Or.inl rfl
      · exact absurd h (List.not_mem_nil c)
    | [b1, b2] =>
      have h1 : b1 < 256 := hb b1 (by simp)
      have h2 : b2 < 256 := hb b2 (by simp)
      rcases hc with _ | ⟨_, _ | ⟨_, _ | ⟨_, _ | ⟨_, h⟩⟩⟩⟩
      · exact Or.inr ⟨b1 / 4, by omega, rfl⟩
      · exact Or.inr ⟨b1 % 4 * 16 + b2 / 16, by omega, rfl⟩
      · exact Or.inr ⟨b2 % 16 * 4, by omega, rfl⟩
      · exact Or.inl rfl
      · exact absurd h (List.not_mem_nil c)
    | b1 :: b2 :: b3 :: rest =>
      have h1 : b1 < 256 := hb b1 (by simp)
      have h2 : b2 < 256 := hb b2 (by simp)
      have h3 : b3 < 256 := hb b3 (by simp)
      have hrest : rest.length ≤ n := by
        have := hlen
        simp only [List.length_cons] at this
        omega
      have hbrest : ∀ b ∈ rest, b < 256 := fun b hbm => hb b (by simp [hbm])
      rcases hc with _ | ⟨_, _ | ⟨_, _ | ⟨_, _ | ⟨_, h⟩⟩⟩⟩
      · exact Or.inr ⟨b1 / 4, by omega, rfl⟩
      · exact Or.inr ⟨b1 % 4 * 16 + b2 / 16, by omega, rfl⟩
      · exact Or.inr ⟨b2 % 16 * 4 + b3 / 64, by omega, rfl⟩
      · exact Or.inr ⟨b3 % 64, by omega, rfl⟩
      · exact ih rest hrest hbrest c h

/-- The `+ → -`, `/ → _` substitution `encrypt` applies to make the
token URL safe. -/
def replChar (c : Char) : Char :=
  if c = '+' then '-' else if c = '/' then '_' else c

/-- The inverse substitution `decrypt` applies first. -/
def invRepl (c : Char) : Char :=
  if c = '-' then '+' else if c = '_' then '/' else c

theorem invRepl_replChar_fin : ∀ i : Fin 64,
    invRepl (replChar (b64Char i.val)) = b64Char i.val := by decide

/-- The trailing `=`-padding strip (`replace(/=+$/, '')`). -/
def stripEqSuffix (s : JStr) : JStr :=
  (s.reverse.dropWhile (fun c => c = '=')).reverse

/-- The re-padding loop of `decrypt` (`while (length % 4) += '='`). -/
def repadBase64 (s : JStr) : JStr :=
  s ++ List.replicate ((4 - s.length % 4) % 4) '='

theorem filterMap_congr_mem {α β : Type} (f g : α → Option β) :
    ∀ l : List α, (∀ a ∈ l, f a = g a) → l.filterMap f = l.filterMap g := by
  intro l
  induction l with
  | nil => intro _; rfl
  | cons a l ih =>
    intro h
    rw [List.filterMap_cons, List.filterMap_cons, h a (by simp),
      ih (fun x hx => h x (by simp [hx]))]

theorem filterMap_replicate_eq_none {α β : Type} (f : α → Option β) (a : α)
    (hf : f a = none) : ∀ k, (List.replicate k a).filterMap f = [] := by
  intro k
  induction k with
  | zero => rfl
  | succ k ih => rw [List.replicate_succ, List.filterMap_cons, hf, ih]

theorem stripEqSuffix_decomp (s : JStr) :
    ∃ k, s = stripEqSuffix s ++ List.replicate k '=' := by
  refine ⟨(s.reverse.takeWhile (fun c => c = '=')).length, ?_⟩
  have htk : s.reverse.takeWhile (fun c => c = '=')
      = List.replicate (s.reverse.takeWhile (fun c => c = '=')).length '=' := by
    apply List.eq_replicate_of_mem
    intro b hbm
    have := List.mem_takeWhile_imp hbm
    simpa using this
  calc s = s.reverse.reverse := (List.reverse_reverse s).symm
    _ = ((s.reverse.takeWhile (fun c => c = '='))
          ++ (s.reverse.dropWhile (fun c => c = '='))).reverse := by
        rw [List.takeWhile_append_dropWhile]
    _ = stripEqSuffix s ++ (s.reverse.takeWhile (fun c => c = '=')).reverse := by
        rw [List.reverse_append]
        rfl
    _ = stripEqSuffix s ++ List.replicate (s.reverse.takeWhile (fun c => c = '=')).length '=' := by
        have hrep : (s.reverse.takeWhile (fun c => c = '=')).reverse
            = List.replicate (s.reverse.takeWhile (fun c => c = '=')).length '=' := by
          conv_lhs => rw [htk]
          rw [List.reverse_replicate]
        rw [hrep]

/-- Decoding the decrypt-side pipeline (un-substitute, re-pad, lenient
base64 decode) of the encrypt-side pipeline (base64 encode, substitute,
strip padding) recovers exactly the plain base64 decode of the
bytes. -/
theorem pipeline_decode (bytes : List Nat) (hb : ∀ b ∈ bytes, b < 256) :
    b64DecodeLenient (repadBase64
        ((stripEqSuffix ((b64Encode bytes).map replChar)).map invRepl))
      = bytes := by
  have hclass := b64Encode_chars bytes.length bytes (le_refl _) hb
  have hinv : ∀ c ∈ b64Encode bytes, b64DecChar (invRepl (replChar c)) = b64DecChar c := by
    intro c hc
    rcases hclass c hc with rfl | ⟨m, hm, rfl⟩
    · rfl
    · rw [invRepl_replChar_fin ⟨m, hm⟩]
  unfold b64DecodeLenient
  unfold repadBase64
  rw [List.filterMap_append, filterMap_replicate_eq_none b64DecChar '=' rfl, List.append_nil]
  rw [List.filterMap_map]
  obtain ⟨k, hdecomp⟩ := stripEqSuffix_decomp ((b64Encode bytes).map replChar)
  have hmain : ((b64Encode bytes).map replChar).filterMap (b64DecChar ∘ invRepl)
      = (b64Encode bytes).filterMap b64DecChar := by
    rw [List.filterMap_map]
    exact filterMap_congr_mem _ _ (b64Encode bytes) (fun c hc => hinv c hc)
  have hsplit : ((b64Encode bytes).map replChar).filterMap (b64DecChar ∘ invRepl)
      = (stripEqSuffix ((b64Encode bytes).map replChar)).filterMap (b64DecChar ∘ invRepl) := by
    conv =>
      lhs
      rw [hdecomp]
    rw [List.filterMap_append,
      filterMap_replicate_eq_none (b64DecChar ∘ invRepl) '=' rfl, List.append_nil]
  rw [← hsplit, hmain]
  exact b64_decode_encode bytes hb

/-! ## The key codec (claims C1, C5) -/

/-- The external cryptographic primitives the codec is built on, with
the standard guarantees of scrypt + AES-256-GCM the code relies on:
decryption with the same key, IV and tag inverts encryption; ciphertext
and tag are byte strings; and the GCM authentication tag is 16 bytes
(`TAG_LENGTH`).  Keys, IVs and buffers are byte lists. -/
structure GcmSpec where
  scryptKdf : List Nat → List Nat → List Nat
  gcmEnc : List Nat → List Nat → List Nat → List Nat × List Nat
  gcmDec : List Nat → List Nat → List Nat → List Nat → Option (List Nat)
  enc_dec : ∀ k iv pt, gcmDec k iv (gcmEnc k iv pt).2 (gcmEnc k iv pt).1 = some pt
  enc_ct_bytes : ∀ k iv pt, (∀ b ∈ pt, b < 256) → ∀ b ∈ (gcmEnc k iv pt).1, b < 256
  enc_tag_bytes : ∀ k iv pt b, b ∈ (gcmEnc k iv pt).2 → b < 256
  enc_tag_len : ∀ k iv pt, (gcmEnc k iv pt).2.length = 16

namespace EncryptionService

/-- `EncryptionService.encrypt` (`middleware.ts`/`key-encryption`): a
fresh 16-byte salt and 12-byte IV (passed in as the random draws),
a per-call scrypt key from the master key and salt, AES-256-GCM
encryption, then `salt ‖ iv ‖ tag ‖ ciphertext` encoded base64 URL-safe
unpadded. -/
def encrypt (G : GcmSpec) (masterKey salt iv pt : List Nat) : JStr :=
  let key := G.scryptKdf masterKey salt
  let tag := (G.gcmEnc key iv pt).2
  let encryptedBuffer := (G.gcmEnc key iv pt).1
  let resultBuffer := salt ++ iv ++ tag ++ encryptedBuffer
  stripEqSuffix ((b64Encode resultBuffer).map replChar)

/-- The generic message thrown before the `try` on empty input. -/
def msgEmpty : JStr := toJStr "Decryption failed: Input string cannot be empty."

/-- The generic message the `catch` block produces when the internal
error mentions malformed data — here, the too-short length check
(`'Malformed encrypted data (too short).'`). -/
def msgMalformed : JStr := toJStr "Decryption failed: Malformed encrypted data format."

/-- The generic message the `catch` block produces when the cipher's
authentication fails (Node throws `Unsupported state or unable to
authenticate data`, which the catch matches on). -/
def msgCorrupted : JStr := toJStr "Decryption failed: Invalid or corrupted encrypted data."

/-- `EncryptionService.decrypt`: reject empty input; undo the URL-safe
substitution, re-add base64 padding, decode leniently; require at least
`SALT_LENGTH + IV_LENGTH + TAG_LENGTH = 44` bytes; slice salt, IV and
tag off the front, re-derive the key from the extracted salt, and
decrypt verifying the tag.  Every failure is caught and rethrown as one
of the generic `Decryption failed:` messages above. -/
def decrypt (G : GcmSpec) (masterKey : List Nat) (input : JStr) : Except JStr (List Nat) :=
  if input = [] then .error msgEmpty
  else
    let dataBuffer := b64DecodeLenient (repadBase64 (input.map invRepl))
    if dataBuffer.length < 44 then .error msgMalformed
    else
      let salt := dataBuffer.take 16
      let iv := (dataBuffer.drop 16).take 12
      let tag := (dataBuffer.drop 28).take 16
      let encryptedData := dataBuffer.drop 44
      let key := G.scryptKdf masterKey salt
      match G.gcmDec key iv tag encryptedData with
      | some pt => .ok pt
      | none => .error msgCorrupted

end EncryptionService

theorem take_append_of_len {α : Type} (a b : List α) (n : Nat) (h : a.length = n) :
    (a ++ b).take n = a := by
  subst h
  exact List.take_left a b

theorem drop_append_of_len {α : Type} (a b : List α) (n : Nat) (h : a.length = n) :
    (a ++ b).drop n = b := by
  subst h
  exact List.drop_left a b

theorem encrypt_decrypt_roundtrip (G : GcmSpec) (mk salt iv pt : List Nat)
    (hs : salt.length = 16) (hsb : ∀ b ∈ salt, b < 256)
    (hi : iv.length = 12) (hib : ∀ b ∈ iv, b < 256)
    (hp : ∀ b ∈ pt, b < 256) :
    EncryptionService.decrypt G mk (EncryptionService.encrypt G mk salt iv pt)
      = .ok pt := by
  have htlen : (G.gcmEnc (G.scryptKdf mk salt) iv pt).2.length = 16 :=
    G.enc_tag_len _ iv pt
  have htb := G.enc_tag_bytes (G.scryptKdf mk salt) iv pt
  have hcb := G.enc_ct_bytes (G.scryptKdf mk salt) iv pt hp
  have hallb : ∀ b ∈ salt ++ iv ++ (G.gcmEnc (G.scryptKdf mk salt) iv pt).2
      ++ (G.gcmEnc (G.scryptKdf mk salt) iv pt).1, b < 256 := by
    intro b hb
    simp only [List.append_assoc, List.mem_append] at hb
    rcases hb with h | h | h | h
    · exact hsb b h
    · exact hib b h
    · exact htb b h
    · exact hcb b h
  have hdec : b64DecodeLenient (repadBase64
      ((EncryptionService.encrypt G mk salt iv pt).map invRepl))
      = salt ++ iv ++ (G.gcmEnc (G.scryptKdf mk salt) iv pt).2
        ++ (G.gcmEnc (G.scryptKdf mk salt) iv pt).1 :=
    pipeline_decode _ hallb
  have hlen44 : (salt ++ iv ++ (G.gcmEnc (G.scryptKdf mk salt) iv pt).2
      ++ (G.gcmEnc (G.scryptKdf mk salt) iv pt).1).length
      = 44 + (G.gcmEnc (G.scryptKdf mk salt) iv pt).1.length := by
    simp only [List.length_append, hs, hi, htlen]
  have hne : EncryptionService.encrypt G mk salt iv pt ≠ [] := by
    intro he
    rw [he] at hdec
    have h0 : b64DecodeLenient (repadBase64 (List.map invRepl [])) = [] := rfl
    rw [h0] at hdec
    have hlen := congrArg List.length hdec
    rw [hlen44] at hlen
    simp only [List.length_nil] at hlen
    omega
  have e1 : (salt ++ iv ++ (G.gcmEnc (G.scryptKdf mk salt) iv pt).2
      ++ (G.gcmEnc (G.scryptKdf mk salt) iv pt).1).take 16 = salt := by
    rw [List.append_assoc, List.append_assoc]
    exact take_append_of_len salt _ 16 hs
  have e2 : ((salt ++ iv ++ (G.gcmEnc (G.scryptKdf mk salt) iv pt).2
      ++ (G.gcmEnc (G.scryptKdf mk salt) iv pt).1).drop 16).take 12 = iv := by
    rw [List.append_assoc, List.append_assoc]
    rw [drop_append_of_len salt _ 16 hs]
    exact take_append_of_len iv _ 12 hi
  have e3 : ((salt ++ iv ++ (G.gcmEnc (G.scryptKdf mk salt) iv pt).2
      ++ (G.gcmEnc (G.scryptKdf mk salt) iv pt).1).drop 28).take 16
      = (G.gcmEnc (G.scryptKdf mk salt) iv pt).2 := by
    rw [List.append_assoc]
    rw [drop_append_of_len (salt ++ iv) _ 28 (by simp [hs, hi])]
    exact take_append_of_len _ _ 16 htlen
  have e4 : (salt ++ iv ++ (G.gcmEnc (G.scryptKdf mk salt) iv pt).2
      ++ (G.gcmEnc (G.scryptKdf mk salt) iv pt).1).drop 44
      = (G.gcmEnc (G.scryptKdf mk salt) iv pt).1 :=
    drop_append_of_len _ _ 44 (by simp [hs, hi, htlen])
  unfold EncryptionService.decrypt
  rw [if_neg hne]
  simp only [hdec, e1, e2, e3, e4]
  rw [if_neg (by rw [hlen44]; omega)]
  rw [G.enc_dec (G.scryptKdf mk salt) iv pt]

namespace EncryptionServiceLegacy

/-- Lower-case hexadecimal digit character for `d < 16`. -/
def hexDigitChar (d : Nat) : Char :=
  if d < 10 then Char.ofNat (48 + d) else Char.ofNat (97 + (d - 10))

/-- Node `cipher.update(..., 'hex')`: two hex characters per byte. -/
def hexEncode : List Nat → JStr
  | [] => []
  | b :: rest => hexDigitChar (b / 16) :: hexDigitChar (b % 16) :: hexEncode rest

/-- Node `Buffer.from(string, 'hex')`: consume hex-digit pairs,
stopping at the first invalid pair or leftover character. -/
def hexDecode : JStr → List Nat
  | c1 :: c2 :: rest =>
    match hexVal c1, hexVal c2 with
    | some h1, some h2 => (h1 * 16 + h2) :: hexDecode rest
    | _, _ => []
  | _ => []

theorem hexVal_hexDigitChar : ∀ i : Fin 16, hexVal (hexDigitChar i.val) = some i.val := by
  decide

theorem hexVal_hexDigitChar_lt {d : Nat} (h : d < 16) : hexVal (hexDigitChar d) = some d :=
  hexVal_hexDigitChar ⟨d, h⟩

theorem hex_round_trip : ∀ bs : List Nat, (∀ b ∈ bs, b < 256) →
    hexDecode (hexEncode bs) = bs := by
  intro bs
  induction bs with
  | nil => intro _; rfl
  | cons b rest ih =>
    intro hb
    have hblt : b < 256 := hb b (by simp)
    show hexDecode (hexDigitChar (b / 16) :: hexDigitChar (b % 16) :: hexEncode rest)
      = b :: rest
    rw [show hexDecode (hexDigitChar (b / 16) :: hexDigitChar (b % 16) :: hexEncode rest)
        = match hexVal (hexDigitChar (b / 16)), hexVal (hexDigitChar (b % 16)) with
          | some h1, some h2 => (h1 * 16 + h2) :: hexDecode (hexEncode rest)
          | _, _ => [] from rfl]
    rw [hexVal_hexDigitChar_lt (by omega : b / 16 < 16),
      hexVal_hexDigitChar_lt (by omega : b % 16 < 16)]
    rw [ih (fun x hx => hb x (by simp [hx]))]
    show (b / 16 * 16 + b % 16) :: rest = b :: rest
    congr 1
    omega

/-- The literal `'salt'` passed to `scryptSync` at construction
(UTF-8 bytes of `"salt"`). -/
def saltLiteral : List Nat := [115, 97, 108, 116]

/-- `EncryptionService.encrypt` from `encryption.ts` (`part_003`): a
fixed key derived once from the passed key string and the literal salt
`'salt'`; per call a random 16-byte IV and a random (unused for key
derivation) 64-byte salt; GCM encryption whose ciphertext goes through
a hex encode/decode round trip (`update(..., 'hex')` then
`Buffer.from(..., 'hex')`); output `salt ‖ iv ‖ tag ‖ ciphertext` in
padded standard base64. -/
def encrypt (G : GcmSpec) (keyStr salt iv pt : List Nat) : JStr :=
  let key := G.scryptKdf keyStr saltLiteral
  let tag := (G.gcmEnc key iv pt).2
  let ct := hexDecode (hexEncode (G.gcmEnc key iv pt).1)
  b64Encode (salt ++ iv ++ tag ++ ct)

/-- `EncryptionService.decrypt` from `encryption.ts`: base64 decode,
slice `salt(64) ‖ iv(16) ‖ tag(16) ‖ ciphertext` (the extracted salt is
unused — the key is the fixed one), decrypt verifying the tag.  There
is no catch: a verification failure propagates, modelled as `none`. -/
def decrypt (G : GcmSpec) (keyStr : List Nat) (input : JStr) : Option (List Nat) :=
  let buffer := b64DecodeLenient input
  let iv := (buffer.drop 64).take 16
  let tag := (buffer.drop 80).take 16
  let encryptedData := buffer.drop 96
  G.gcmDec (G.scryptKdf keyStr saltLiteral) iv tag encryptedData

end EncryptionServiceLegacy

theorem legacy_encrypt_decrypt_roundtrip (G : GcmSpec) (keyStr salt iv pt : List Nat)
    (hs : salt.length = 64) (hsb : ∀ b ∈ salt, b < 256)
    (hi : iv.length = 16) (hib : ∀ b ∈ iv, b < 256)
    (hp : ∀ b ∈ pt, b < 256) :
    EncryptionServiceLegacy.decrypt G keyStr
        (EncryptionServiceLegacy.encrypt G keyStr salt iv pt) = some pt := by
  have hcb := G.enc_ct_bytes (G.scryptKdf keyStr EncryptionServiceLegacy.saltLiteral) iv pt hp
  have hhex : EncryptionServiceLegacy.hexDecode (EncryptionServiceLegacy.hexEncode
      (G.gcmEnc (G.scryptKdf keyStr EncryptionServiceLegacy.saltLiteral) iv pt).1)
      = (G.gcmEnc (G.scryptKdf keyStr EncryptionServiceLegacy.saltLiteral) iv pt).1 :=
    EncryptionServiceLegacy.hex_round_trip _ hcb
  have htlen : (G.gcmEnc (G.scryptKdf keyStr EncryptionServiceLegacy.saltLiteral) iv pt).2.length
      = 16 := G.enc_tag_len _ iv pt
  have htb := G.enc_tag_bytes (G.scryptKdf keyStr EncryptionServiceLegacy.saltLiteral) iv pt
  have hallb : ∀ b ∈ salt ++ iv
      ++ (G.gcmEnc (G.scryptKdf keyStr EncryptionServiceLegacy.saltLiteral) iv pt).2
      ++ EncryptionServiceLegacy.hexDecode (EncryptionServiceLegacy.hexEncode
          (G.gcmEnc (G.scryptKdf keyStr EncryptionServiceLegacy.saltLiteral) iv pt).1),
      b < 256 := by
    intro b hb
    rw [hhex] at hb
    simp only [List.append_assoc, List.mem_append] at hb
    rcases hb with h | h | h | h
    · exact hsb b h
    · exact hib b h
    · exact htb b h
    · exact hcb b h
  have hdec : b64DecodeLenient (EncryptionServiceLegacy.encrypt G keyStr salt iv pt)
      = salt ++ iv
        ++ (G.gcmEnc (G.scryptKdf keyStr EncryptionServiceLegacy.saltLiteral) iv pt).2
        ++ EncryptionServiceLegacy.hexDecode (EncryptionServiceLegacy.hexEncode
            (G.gcmEnc (G.scryptKdf keyStr EncryptionServiceLegacy.saltLiteral) iv pt).1) :=
    b64_decode_encode _ hallb
  unfold EncryptionServiceLegacy.decrypt
  rw [hdec, hhex]
  have e2 : ((salt ++ iv
      ++ (G.gcmEnc (G.scryptKdf keyStr EncryptionServiceLegacy.saltLiteral) iv pt).2
      ++ (G.gcmEnc (G.scryptKdf keyStr EncryptionServiceLegacy.saltLiteral) iv pt).1).drop 64).take 16
      = iv := by
    rw [List.append_assoc, List.append_assoc]
    rw [drop_append_of_len salt _ 64 hs]
    exact take_append_of_len iv _ 16 hi
  have e3 : ((salt ++ iv
      ++ (G.gcmEnc (G.scryptKdf keyStr EncryptionServiceLegacy.saltLiteral) iv pt).2
      ++ (G.gcmEnc (G.scryptKdf keyStr EncryptionServiceLegacy.saltLiteral) iv pt).1).drop 80).take 16
      = (G.gcmEnc (G.scryptKdf keyStr EncryptionServiceLegacy.saltLiteral) iv pt).2 := by
    rw [List.append_assoc]
    rw [drop_append_of_len (salt ++ iv) _ 80 (by simp [hs, hi])]
    exact take_append_of_len _ _ 16 htlen
  have e4 : (salt ++ iv
      ++ (G.gcmEnc (G.scryptKdf keyStr EncryptionServiceLegacy.saltLiteral) iv pt).2
      ++ (G.gcmEnc (G.scryptKdf keyStr EncryptionServiceLegacy.saltLiteral) iv pt).1).drop 96
      = (G.gcmEnc (G.scryptKdf keyStr EncryptionServiceLegacy.saltLiteral) iv pt).1 :=
    drop_append_of_len _ _ 96 (by simp [hs, hi, htlen])
  simp only [e2, e3, e4]
  exact G.enc_dec _ iv pt

/-- A trivial instantiation of the cryptographic capability (identity
cipher, constant key-derivation, all-zero 16-byte tag), used to
evaluate the codec pipeline on concrete inputs. -/
def trivialGcm : GcmSpec where
  scryptKdf := fun _ _ => List.replicate 32 0
  gcmEnc := fun _ _ pt => (pt, List.replicate 16 0)
  gcmDec := fun _ _ _ ct => some ct
  enc_dec := fun _ _ _ => rfl
  enc_ct_bytes := fun _ _ _ h => h
  enc_tag_bytes := fun _ _ _ b hb => by rw [List.eq_of_mem_replicate hb]; omega
  enc_tag_len := fun _ _ _ => rfl

/-- C1: for every master key, every plaintext (as UTF-8 bytes) and
every choice of the random salt and IV drawn during encryption,
decrypting a token produced by `encrypt` with the same master key
returns exactly the original plaintext — for both the production
`EncryptionService` (`middleware.ts`, 16-byte salt, 12-byte IV,
URL-safe unpadded output) and the legacy `EncryptionService`
(`encryption.ts`, 64-byte salt, 16-byte IV, fixed key, padded
output). -/
theorem c1_encrypt_decrypt_round_trip : ∀ (G : GcmSpec) (masterKey : List Nat),
    (∀ salt iv pt : List Nat, salt.length = 16 → (∀ b ∈ salt, b < 256) →
      iv.length = 12 → (∀ b ∈ iv, b < 256) → (∀ b ∈ pt, b < 256) →
      EncryptionService.decrypt G masterKey
        (EncryptionService.encrypt G masterKey salt iv pt) = .ok pt) ∧
    (∀ salt iv pt : List Nat, salt.length = 64 → (∀ b ∈ salt, b < 256) →
      iv.length = 16 → (∀ b ∈ iv, b < 256) → (∀ b ∈ pt, b < 256) →
      EncryptionServiceLegacy.decrypt G masterKey
        (EncryptionServiceLegacy.encrypt G masterKey salt iv pt) = some pt) :=
  fun G mk =>
    ⟨fun salt iv pt hs hsb hi hib hp =>
      encrypt_decrypt_roundtrip G mk salt iv pt hs hsb hi hib hp,
     fun salt iv pt hs hsb hi hib hp =>
      legacy_encrypt_decrypt_roundtrip G mk salt iv pt hs hsb hi hib hp⟩

/-- C1 (witness): the round trip evaluated on the concrete plaintext
bytes `[104, 105]` (`"hi"`) with concrete salt and IV draws, for both
services. -/
theorem c1_round_trip_witness :
    EncryptionService.decrypt trivialGcm [107]
        (EncryptionService.encrypt trivialGcm [107]
          (List.replicate 16 1) (List.replicate 12 2) [104, 105]) = .ok [104, 105] ∧
    EncryptionServiceLegacy.decrypt trivialGcm [107]
        (EncryptionServiceLegacy.encrypt trivialGcm [107]
          (List.replicate 64 1) (List.replicate 16 2) [104, 105]) = some [104, 105] :=
  ⟨(c1_encrypt_decrypt_round_trip trivialGcm [107]).1
      (List.replicate 16 1) (List.replicate 12 2) [104, 105]
      (by decide) (by decide) (by decide) (by decide) (by decide),
   (c1_encrypt_decrypt_round_trip trivialGcm [107]).2
      (List.replicate 64 1) (List.replicate 16 2) [104, 105]
      (by decide) (by decide) (by decide) (by decide) (by decide)⟩

/-- C5 (counterexample): the claim says every malformed input produces
the same message.  The empty input and the four-character input
`"AAAA"` (which decodes to 3 bytes, below the 44-byte minimum) are both
malformed, yet `decrypt` reports them with two different messages. -/
theorem c5_decrypt_message_counterexample :
    EncryptionService.decrypt trivialGcm [0] [] = .error EncryptionService.msgEmpty ∧
    EncryptionService.decrypt trivialGcm [0] (toJStr "AAAA")
      = .error EncryptionService.msgMalformed ∧
    EncryptionService.msgEmpty ≠ EncryptionService.msgMalformed := by
  decide

/-- C5 (amended): every `decrypt` failure carries one of three fixed
generic messages — empty input, malformed data, or corrupted
(unauthenticated) data — each beginning with `"Decryption failed:"`;
the specific cryptographic root cause is never exposed, but the
message does distinguish those three broad stages, so it is not one
single identical string. -/
theorem c5_decrypt_message_amended :
    ∀ (G : GcmSpec) (masterKey : List Nat) (s e : JStr),
    EncryptionService.decrypt G masterKey s = .error e →
    (e = EncryptionService.msgEmpty ∨ e = EncryptionService.msgMalformed ∨
     e = EncryptionService.msgCorrupted) ∧
    (toJStr "Decryption failed:").isPrefixOf e = true := by
  intro G mk s e he
  simp only [EncryptionService.decrypt] at he
  by_cases h1 : s = []
  · rw [if_pos h1] at he
    injection he with h
    subst h
    exact ⟨Or.inl rfl, by decide⟩
  · rw [if_neg h1] at he
    by_cases h2 : (b64DecodeLenient (repadBase64 (s.map invRepl))).length < 44
    · rw [if_pos h2] at he
      injection he with h
      subst h
      exact ⟨Or.inr (Or.inl rfl), by decide⟩
    · rw [if_neg h2] at he
      cases hg : G.gcmDec
          (G.scryptKdf mk ((b64DecodeLenient (repadBase64 (s.map invRepl))).take 16))
          (((b64DecodeLenient (repadBase64 (s.map invRepl))).drop 16).take 12)
          (((b64DecodeLenient (repadBase64 (s.map invRepl))).drop 28).take 16)
          ((b64DecodeLenient (repadBase64 (s.map invRepl))).drop 44) with
      | some pt =>
        rw [hg] at he
        simp at he
      | none =>
        rw [hg] at he
        injection he with h
        subst h
        exact ⟨Or.inr (Or.inr rfl), by decide⟩

/-- C5 (witness): the amended statement applied to the concrete empty
input. -/
theorem c5_decrypt_message_witness :
    (EncryptionService.msgEmpty = EncryptionService.msgEmpty ∨
     EncryptionService.msgEmpty = EncryptionService.msgMalformed ∨
     EncryptionService.msgEmpty = EncryptionService.msgCorrupted) ∧
    (toJStr "Decryption failed:").isPrefixOf EncryptionService.msgEmpty = true :=
  c5_decrypt_message_amended trivialGcm [0] [] EncryptionService.msgEmpty (by decide)
